import Mathlib

/-!
Verification development for the leann-search-api repository.

The Python source is shallowly embedded: texts are lists of characters,
Python slice/rfind semantics are reproduced on integers (including negative
index normalisation), JSON metadata values are an inductive type, the
per-index file store is an association list keyed by file name (without the
".json" suffix), and potentially non-terminating loops are fuel-indexed,
with `none` marking divergence.  Scores and weights are modelled as exact
rationals standing for Python floats.
-/

namespace Leann

/-- Text is modelled as the list of code points of a Python string. -/
abbrev Text := List Char

/-- Python index normalisation for slice bounds: negative indices count from
the end and are clamped at 0; positive indices are clamped at the length. -/
def normIdx (n : Nat) (i : Int) : Nat :=
  if i < 0 then ((n : Int) + i).toNat else min n i.toNat

/-- Python slice `t[a:b]` with full negative-index and clamping semantics. -/
def pySlice (t : Text) (a b : Int) : Text :=
  let lo := normIdx t.length a
  let hi := normIdx t.length b
  (t.drop lo).take (hi - lo)

/-- Python slice `t[a:]`. -/
def pySliceFrom (t : Text) (a : Int) : Text :=
  t.drop (normIdx t.length a)

/-- Does `sep` occur in `t` starting exactly at index `j`? -/
def matchesAt (t sep : Text) (j : Nat) : Bool :=
  decide ((t.drop j).take sep.length = sep)

/-- Scan downward from index `j` to index `lo` for an occurrence of `sep`. -/
def rfindAux (t sep : Text) (lo : Nat) : Nat → Option Nat
  | 0 => if lo = 0 ∧ matchesAt t sep 0 then some 0 else none
  | j + 1 =>
    if lo ≤ j + 1 ∧ matchesAt t sep (j + 1) then some (j + 1)
    else rfindAux t sep lo j

/-- Python `t.rfind(sep, a, b)`: the largest index `j` with
`normIdx a ≤ j`, `j + sep.length ≤ normIdx b` and `sep` occurring at `j`;
`-1` when there is none. -/
def pyRfind (t sep : Text) (a b : Int) : Int :=
  let n := t.length
  let lo := normIdx n a
  let hi := normIdx n b
  if sep.length ≤ hi then
    match rfindAux t sep lo (hi - sep.length) with
    | some j => (j : Int)
    | none => -1
  else -1

/-- Separator preference list of `DocumentService._chunk_text`. -/
def separators : List Text := [['\n', '\n'], ['\n'], ['。'], ['.'], [' ']]

/-- Inner loop of the break-point search: try each separator in order and
take the first that occurs in the window, the break point being just after
it; default to `e` when none occurs. -/
def findBreakAux (t : Text) (lo e : Int) : List Text → Int
  | [] => e
  | sep :: rest =>
    let pos := pyRfind t sep lo e
    if pos = -1 then findBreakAux t lo e rest else pos + sep.length

/-- Break-point search of `_chunk_text`: the window is
`[start + chunk_size / 2, end)`. -/
def findBreak (t : Text) (s : Nat) (start e : Int) : Int :=
  findBreakAux t (start + ((s / 2 : Nat) : Int)) e separators

/-- Fuel-indexed main loop of `DocumentService._chunk_text`.  The cursor
`start` is a Python int and may go negative (`start = break_point -
chunk_overlap`).  `none` means the fuel ran out, i.e. the Python loop ran
longer than the given bound. -/
def chunkLoop (t : Text) (s o : Nat) : Nat → Int → List Text → Option (List Text)
  | 0, _, _ => none
  | fuel + 1, start, acc =>
    if start < (t.length : Int) then
      let e := start + (s : Int)
      if (t.length : Int) ≤ e then some (acc ++ [pySliceFrom t start])
      else
        let bp := findBreak t s start e
        chunkLoop t s o fuel (bp - (o : Int)) (acc ++ [pySlice t start bp])
    else some acc

/-- `DocumentService._chunk_text`.  A terminating run of the Python loop
makes at most `t.length + o + 2` iterations (the cursor of a terminating,
deterministic run never revisits a value, and all its values lie in
`[-o, t.length)`), so `none` here means the Python code diverges. -/
def chunkText (t : Text) (s o : Nat) : Option (List Text) :=
  if t.isEmpty then some [] else chunkLoop t s o (t.length + o + 2) 0 []

/-- Concrete input on which `_chunk_text` loops forever with
`chunk_size = 4`, `chunk_overlap = 3` (which satisfies `0 ≤ o < s`):
the space at index 2 is found as break point, `break_point = 3`, and the
cursor is reset to `3 - 3 = 0` on every iteration. -/
def divergingText : Text := "ab cdefgh".toList

/-! ### Metadata values and the filter evaluator

JSON metadata values as handled by `DocumentService._matches_filter`.
Python equality identifies booleans with the integers 0 and 1; order
comparisons are defined within numbers (booleans included), within strings
and elementwise within lists, and raise `TypeError` otherwise; `None`
supports only (in)equality. -/

/-- JSON scalar metadata value (integers stand for JSON numbers; floats
are not needed by any claim). -/
inductive JScalar where
  | null
  | bool (b : Bool)
  | num (n : Int)
  | str (s : String)
deriving DecidableEq

/-- Metadata value: per the data model, a JSON scalar or a list of
scalars. -/
inductive JValue where
  | scalar (v : JScalar)
  | arr (xs : List JScalar)
deriving DecidableEq

/-- Python `==` on scalars: `True == 1`, `False == 0`, `None` equals only
`None`; no exceptions. -/
def pyEqS : JScalar → JScalar → Bool
  | .null, .null => true
  | .bool a, .bool b => a == b
  | .bool a, .num m => (if a then (1 : Int) else 0) == m
  | .num n, .bool b => n == (if b then (1 : Int) else 0)
  | .num n, .num m => n == m
  | .str a, .str b => a == b
  | _, _ => false

/-- Python `==` on metadata values; lists compare elementwise. -/
def pyEq : JValue → JValue → Bool
  | .scalar a, .scalar b => pyEqS a b
  | .arr xs, .arr ys =>
    xs.length == ys.length && (List.zip xs ys).all (fun p => pyEqS p.1 p.2)
  | _, _ => false

/-- Python three-way rich comparison on scalars; `TypeError` on
unsupported pairs (`None` in particular). -/
def pyCompareS : JScalar → JScalar → Except String Ordering
  | .num a, .num b => .ok (compare a b)
  | .num a, .bool b => .ok (compare a (if b then 1 else 0))
  | .bool a, .num b => .ok (compare (if a then (1 : Int) else 0) b)
  | .bool a, .bool b => .ok (compare (if a then (1 : Int) else 0) (if b then 1 else 0))
  | .str a, .str b => .ok (compare a b)
  | _, _ => .error "TypeError: unsupported comparison"

/-- Python list comparison: skip `==` elements, then compare the first
unequal pair; a strict prefix is smaller. -/
def pyCompareList : List JScalar → List JScalar → Except String Ordering
  | [], [] => .ok .eq
  | [], _ :: _ => .ok .lt
  | _ :: _, [] => .ok .gt
  | a :: as, b :: bs =>
    if pyEqS a b then pyCompareList as bs else pyCompareS a b

/-- Python three-way rich comparison on metadata values. -/
def pyCompare : JValue → JValue → Except String Ordering
  | .scalar a, .scalar b => pyCompareS a b
  | .arr xs, .arr ys => pyCompareList xs ys
  | _, _ => .error "TypeError: unsupported comparison"

/-- Does the character list `sub` occur contiguously inside `s`? -/
def subTextOf (sub s : List Char) : Bool :=
  (List.range (s.length + 1)).any (fun i => sub.isPrefixOf (s.drop i))

/-- Python membership `x in c` for list and string containers. -/
def pyIn (x c : JValue) : Except String Bool :=
  match c with
  | .arr xs => .ok (xs.any (fun y => pyEq x (.scalar y)))
  | .scalar (.str s) =>
    match x with
    | .scalar (.str sub) => .ok (subTextOf sub.data s.data)
    | _ => .error "TypeError: in <string> requires string as left operand"
  | _ => .error "TypeError: argument is not iterable"

/-- Test that `p` is a prefix of `s`, on the code-point lists. -/
def strPre (p s : String) : Bool := p.data.isPrefixOf s.data

/-- Test that `p` is a suffix of `s`, on the code-point lists. -/
def strSuf (p s : String) : Bool := p.data.isSuffixOf s.data

/-- Metadata maps are insertion-ordered string-keyed dictionaries. -/
abbrev Meta := List (String × JValue)

/-- Lookup in a metadata map (Python `dict.get`, defaulting to `None`). -/
def metaGet (m : Meta) (k : String) : JValue :=
  ((m.find? (fun kv => kv.1 == k)).map (fun kv => kv.2)).getD (.scalar .null)

/-- Python `dict` upsert: replace the value in place if the key is
present, append otherwise. -/
def dictSet (m : Meta) (k : String) (v : JValue) : Meta :=
  if m.any (fun kv => kv.1 == k) then
    m.map (fun kv => if kv.1 == k then (k, v) else kv)
  else m ++ [(k, v)]

/-- Python shallow dict merge: the keys of `a` first (taking the value
from `b` when `b` has the key), then the new keys of `b` in order. -/
def pyMerge (a b : Meta) : Meta :=
  b.foldl (fun acc kv => dictSet acc kv.1 kv.2) a

/-- A filter condition: either a bare scalar (implicit equality) or a map
of operator names to operands. -/
inductive Condition where
  | scalar (v : JValue)
  | ops (cs : List (String × JValue))
deriving DecidableEq

/-- Predicate maps, in the shape accepted by `_matches_filter`. -/
abbrev Filters := List (String × Condition)

/-- Evaluate one operator of `_matches_filter` against the field value:
`.ok true` means the check passes, `.ok false` means the whole predicate
fails, `.error` is a raised Python exception.  The final catch-all `.ok
true` is the missing `else` branch of the source: an unrecognized operator
is skipped. -/
def evalOp (value : JValue) (op : String) (expected : JValue) : Except String Bool :=
  if op = "==" then .ok (pyEq value expected)
  else if op = "!=" then .ok (!pyEq value expected)
  else if op = "<" then
    match value with
    | .scalar .null => .ok false
    | v => do
      let c ← pyCompare v expected
      .ok (decide (c = .lt))
  else if op = "<=" then
    match value with
    | .scalar .null => .ok false
    | v => do
      let c ← pyCompare v expected
      .ok (decide (c ≠ .gt))
  else if op = ">" then
    match value with
    | .scalar .null => .ok false
    | v => do
      let c ← pyCompare v expected
      .ok (decide (c = .gt))
  else if op = ">=" then
    match value with
    | .scalar .null => .ok false
    | v => do
      let c ← pyCompare v expected
      .ok (decide (c ≠ .lt))
  else if op = "in" then pyIn value expected
  else if op = "not_in" then do
    let b ← pyIn value expected
    .ok (!b)
  else if op = "contains" then
    match value with
    | .scalar (.str s) => pyIn expected (.scalar (.str s))
    | .arr xs => pyIn expected (.arr xs)
    | _ => .ok false
  else if op = "starts_with" then
    match value with
    | .scalar (.str s) =>
      match expected with
      | .scalar (.str p) => .ok (strPre p s)
      | _ => .error "TypeError: startswith first arg must be str"
    | _ => .ok false
  else if op = "ends_with" then
    match value with
    | .scalar (.str s) =>
      match expected with
      | .scalar (.str p) => .ok (strSuf p s)
      | _ => .error "TypeError: endswith first arg must be str"
    | _ => .ok false
  else if op = "is_true" then .ok (decide (value = .scalar (.bool true)))
  else if op = "is_false" then .ok (decide (value = .scalar (.bool false)))
  else .ok true

/-- Conjunction of the operator checks under one field, in order, with
Python short-circuit `return False`. -/
def evalOps (value : JValue) : List (String × JValue) → Except String Bool
  | [] => .ok true
  | (op, exp) :: rest => do
    let b ← evalOp value op exp
    if b then evalOps value rest else .ok false

/-- `DocumentService._matches_filter`: all fields must pass. -/
def matchesFilter (m : Meta) : Filters → Except String Bool
  | [] => .ok true
  | (field, .scalar c) :: rest =>
    if pyEq (metaGet m field) c then matchesFilter m rest else .ok false
  | (field, .ops cs) :: rest => do
    let b ← evalOps (metaGet m field) cs
    if b then matchesFilter m rest else .ok false

/-- The operator names recognized by `_matches_filter`. -/
def recognizedOps : List String :=
  ["==", "!=", "<", "<=", ">", ">=", "in", "not_in", "contains",
   "starts_with", "ends_with", "is_true", "is_false"]

/-! ### Index settings validation (schema `IndexSettings`) -/

/-- Field-range validation of the pydantic `IndexSettings` model: each of
the four numeric fields is checked against its own interval; there is no
cross-field constraint in the source. -/
def indexSettingsValid (graph_degree build_complexity chunk_size chunk_overlap : Int) : Bool :=
  decide (8 ≤ graph_degree) && decide (graph_degree ≤ 128) &&
  decide (32 ≤ build_complexity) && decide (build_complexity ≤ 512) &&
  decide (64 ≤ chunk_size) && decide (chunk_size ≤ 4096) &&
  decide (0 ≤ chunk_overlap) && decide (chunk_overlap ≤ 512)

/-! ### Per-index file store and the document service

One index directory is modelled as an association list per file kind, keyed
by the file name without its `.json` suffix.  A `glob` for
`{doc_id}_chunk_*.json` matches exactly the keys with prefix
`{doc_id}_chunk_` (the trailing `.json` of the pattern cancels against the
suffix of every file name).  Timestamps are abstract naturals passed in by
the caller. -/

/-- One chunk record file under `chunks/`. -/
structure ChunkRec where
  chunk_id : String
  document_id : String
  content : Text
  position : Nat
  metadata : Meta
deriving DecidableEq

/-- One document record file under `documents/`. -/
structure DocRec where
  id : String
  content : Text
  metadata : Meta
  chunk_count : Nat
  created_at : Nat
  updated_at : Nat
deriving DecidableEq

/-- Counters and settings persisted in `metadata.json`. -/
structure IndexMeta where
  chunk_count : Nat
  total_characters : Nat
  chunk_size : Nat
  chunk_overlap : Nat
deriving DecidableEq

/-- Filesystem state of one index: document files, chunk files, whether the
`chunks/` directory exists, and the optional `metadata.json`. -/
structure IndexState where
  docs : List (String × DocRec)
  chunks : List (String × ChunkRec)
  chunksDir : Bool
  meta : Option IndexMeta
deriving DecidableEq

/-- Read a file by name. -/
def fsGet {α : Type} (st : List (String × α)) (k : String) : Option α :=
  (st.find? (fun kv => kv.1 == k)).map (fun kv => kv.2)

/-- Write a file: whole-file replacement if present, creation otherwise. -/
def fsSet {α : Type} (st : List (String × α)) (k : String) (v : α) :
    List (String × α) :=
  if st.any (fun kv => kv.1 == k) then
    st.map (fun kv => if kv.1 == k then (k, v) else kv)
  else st ++ [(k, v)]

/-- Unlink one file. -/
def fsDel {α : Type} (st : List (String × α)) (k : String) : List (String × α) :=
  st.filter (fun kv => kv.1 != k)

/-- Unlink every file whose name matches the glob `p ++ "*"`. -/
def fsDelPre {α : Type} (st : List (String × α)) (p : String) : List (String × α) :=
  st.filter (fun kv => !(strPre p kv.1))

/-- File-name of the chunk at `position` of a document
(`f"{doc_id}_chunk_{i}"`). -/
def chunkKey (d : String) (i : Nat) : String := d ++ "_chunk_" ++ Nat.repr i

/-- Glob prefix selecting all chunk files of one document. -/
def chunkPre (d : String) : String := d ++ "_chunk_"

/-- `_get_index_settings`: stored settings, or the schema defaults
`(512, 64)` when `metadata.json` is absent. -/
def stateSettings (st : IndexState) : Nat × Nat :=
  match st.meta with
  | some m => (m.chunk_size, m.chunk_overlap)
  | none => (512, 64)

/-- One entry of an `AddDocuments` request. -/
structure InputDoc where
  id : Option String
  content : Text
  metadata : Meta

/-- Per-document outcome of `AddDocuments` (`DocumentAddResult`). -/
structure AddResult where
  id : String
  chunk_count : Nat
  status : String
  error : Option String
deriving DecidableEq

/-- Resolution of `doc.get("id") or str(uuid.uuid4())`: a missing or empty
(falsy) id draws a fresh uuid from the oracle `uf` at the batch position. -/
def resolveId (uf : Nat → String) (i : Nat) (d : InputDoc) : String :=
  match d.id with
  | none => uf i
  | some s => if s.isEmpty then uf i else s

/-- Python `arg or dflt` for an optional int argument: `None` and the
falsy `0` both fall back to the default. -/
def orDefault (arg : Option Nat) (dflt : Nat) : Nat :=
  match arg with
  | none => dflt
  | some v => if v = 0 then dflt else v

/-- Write the chunk files of one document in ascending position order, all
carrying the same metadata snapshot. -/
def writeChunks (chunks : List (String × ChunkRec)) (docId : String)
    (md : Meta) (chs : List Text) : List (String × ChunkRec) :=
  chs.enum.foldl
    (fun acc ic =>
      fsSet acc (chunkKey docId ic.1)
        ⟨chunkKey docId ic.1, docId, ic.2, ic.1, md⟩)
    chunks

/-- Per-document loop of `DocumentService.add_documents`, threading the
state, the outcome list and the two counter deltas; `none` propagates a
diverging chunker run. -/
def addDocsLoop (uie : Bool) (cs co now : Nat) (uf : Nat → String) :
    List InputDoc → Nat → IndexState → List AddResult → Nat → Nat →
    Option (IndexState × List AddResult × Nat × Nat)
  | [], _, st, res, tc, tch => some (st, res, tc, tch)
  | d :: rest, i, st, res, tc, tch =>
    let docId := resolveId uf i d
    let existing := fsGet st.docs docId
    if existing.isSome ∧ ¬ uie then
      addDocsLoop uie cs co now uf rest (i + 1) st
        (res ++ [⟨docId, 0, "failed", some "Document already exists"⟩]) tc tch
    else
      match chunkText d.content cs co with
      | none => none
      | some chs =>
        let createdAt := match existing with
          | some e => e.created_at
          | none => now
        let docData : DocRec :=
          ⟨docId, d.content, d.metadata, chs.length, createdAt, now⟩
        let st1 : IndexState := { st with docs := fsSet st.docs docId docData }
        let st2 : IndexState :=
          { st1 with chunks := writeChunks st1.chunks docId d.metadata chs }
        let status := if existing.isSome then "updated" else "added"
        addDocsLoop uie cs co now uf rest (i + 1) st2
          (res ++ [⟨docId, chs.length, status, none⟩])
          (tc + chs.length) (tch + d.content.length)

/-- `DocumentService.add_documents`: chunk-parameter defaulting, `chunks/`
mkdir, the per-document loop, then a single additive counter update when
`metadata.json` exists.  Old chunks of updated documents are NOT deleted
here (unlike `update_document`). -/
def addDocuments (st : IndexState) (docs : List InputDoc)
    (chunkSizeArg chunkOverlapArg : Option Nat) (uie : Bool)
    (uf : Nat → String) (now : Nat) : Option (IndexState × List AddResult) :=
  let cs := orDefault chunkSizeArg (stateSettings st).1
  let co := orDefault chunkOverlapArg (stateSettings st).2
  let st0 : IndexState := { st with chunksDir := true }
  match addDocsLoop uie cs co now uf docs 0 st0 [] 0 0 with
  | none => none
  | some (st1, res, tc, tch) =>
    match st1.meta with
    | none => some (st1, res)
    | some m =>
      some ({ st1 with
        meta := some { m with
          chunk_count := m.chunk_count + tc,
          total_characters := m.total_characters + tch } }, res)

/-- Outcome of `DocumentService.update_document`. -/
inductive UpdateOutcome where
  | notFound
  | raised (msg : String)
  | diverged
  | ok (st : IndexState) (result : AddResult)
deriving DecidableEq

/-- `DocumentService.update_document`.  A content update deletes the old
chunk files by glob and re-chunks with the current index settings; a
metadata-only update rewrites the matching chunk files in place.  The
metadata merge is shallow and only applies when the prior map is truthy.
`raised` models the uncaught `FileNotFoundError` of a chunk write without
a `chunks/` directory; `diverged` a non-terminating chunker, both without
an observable final state. -/
def updateDocument (st : IndexState) (docId : String) (contentArg : Option Text)
    (metadataArg : Option Meta) (mergeMeta : Bool) (now : Nat) : UpdateOutcome :=
  match fsGet st.docs docId with
  | none => .notFound
  | some existing =>
    let newMeta := match metadataArg with
      | some md =>
        if mergeMeta ∧ ¬ existing.metadata.isEmpty then pyMerge existing.metadata md
        else md
      | none => existing.metadata
    match contentArg with
    | some content =>
      let chunks1 := if st.chunksDir then fsDelPre st.chunks (chunkPre docId)
        else st.chunks
      match chunkText content (stateSettings st).1 (stateSettings st).2 with
      | none => .diverged
      | some chs =>
        if ¬ st.chunksDir ∧ ¬ chs.isEmpty then .raised "FileNotFoundError"
        else
          let docData : DocRec := { existing with
            content := content, chunk_count := chs.length,
            metadata := newMeta, updated_at := now }
          .ok { st with
              chunks := writeChunks chunks1 docId newMeta chs,
              docs := fsSet st.docs docId docData }
            ⟨docId, chs.length, "updated", none⟩
    | none =>
      let chunks1 :=
        if st.chunksDir ∧ metadataArg.isSome then
          st.chunks.map (fun kv =>
            if strPre (chunkPre docId) kv.1 then
              (kv.1, { kv.2 with metadata := newMeta })
            else kv)
        else st.chunks
      let docData : DocRec := { existing with metadata := newMeta, updated_at := now }
      .ok { st with chunks := chunks1, docs := fsSet st.docs docId docData }
        ⟨docId, existing.chunk_count, "updated", none⟩

/-- `DocumentService.update_metadata_only`: shallow merge or replacement
on the document record, then the same map written into every chunk file
matching the document's glob; returns the effective metadata. -/
def updateMetadataOnly (st : IndexState) (docId : String) (md : Meta)
    (merge : Bool) (now : Nat) : Option (IndexState × Meta) :=
  match fsGet st.docs docId with
  | none => none
  | some existing =>
    let newMeta :=
      if merge ∧ ¬ existing.metadata.isEmpty then pyMerge existing.metadata md
      else md
    let docData : DocRec := { existing with metadata := newMeta, updated_at := now }
    let st1 : IndexState := { st with docs := fsSet st.docs docId docData }
    let chunks1 :=
      if st.chunksDir then
        st1.chunks.map (fun kv =>
          if strPre (chunkPre docId) kv.1 then
            (kv.1, { kv.2 with metadata := newMeta })
          else kv)
      else st1.chunks
    some ({ st1 with chunks := chunks1 }, newMeta)

/-- `DocumentService.delete_document`: unlink the document file and every
chunk file matching its glob; `metadata.json` is left untouched. -/
def deleteDocument (st : IndexState) (docId : String) : IndexState × Bool :=
  if (fsGet st.docs docId).isSome then
    let st1 : IndexState := { st with docs := fsDel st.docs docId }
    let st2 : IndexState :=
      if st1.chunksDir then { st1 with chunks := fsDelPre st1.chunks (chunkPre docId) }
      else st1
    (st2, true)
  else (st, false)

/-- Chunk summary returned by `get_document` (`ChunkInfo`). -/
structure ChunkInfo where
  chunk_id : String
  content : Text
  position : Nat
deriving DecidableEq

/-- Document detail returned by `get_document` (`DocumentDetail`). -/
structure DocumentDetail where
  id : String
  content : Text
  metadata : Meta
  chunks : List ChunkInfo
  chunk_count : Nat
deriving DecidableEq

/-- Python string `<`: lexicographic comparison of code points. -/
def listLtB : List Char → List Char → Bool
  | [], [] => false
  | [], _ :: _ => true
  | _ :: _, [] => false
  | a :: as, b :: bs =>
    if a < b then true else if b < a then false else listLtB as bs

/-- Python string `<` on strings. -/
def strLtB (a b : String) : Bool := listLtB a.data b.data

/-- File-name comparison used by `sorted(path.glob(...))`: paths compare
by their strings, i.e. by `key ++ ".json"`. -/
def fileLe {α : Type} (a b : String × α) : Bool :=
  !(strLtB (b.1 ++ ".json") (a.1 ++ ".json"))

/-- Stable sort of files by full file name. -/
def sortedByFilename {α : Type} (l : List (String × α)) : List (String × α) :=
  l.mergeSort fileLe

/-- `DocumentService.get_document`: the document record plus its chunk
records enumerated by glob in sorted file-name order. -/
def getDocument (st : IndexState) (docId : String) : Option DocumentDetail :=
  match fsGet st.docs docId with
  | none => none
  | some doc =>
    let files :=
      if st.chunksDir then
        sortedByFilename (st.chunks.filter (fun kv => strPre (chunkPre docId) kv.1))
      else []
    some ⟨doc.id, doc.content, doc.metadata,
      files.map (fun kv => ⟨kv.2.chunk_id, kv.2.content, kv.2.position⟩),
      doc.chunk_count⟩

/-- The running chunk counter of `metadata.json`. -/
def chunkCounter (st : IndexState) : Option Nat :=
  st.meta.map (fun m => m.chunk_count)

/-! ### Search service

Scores and weights are exact rationals standing for Python floats.  The
ANN searcher is an oracle mapping a requested size to a ranked
`(ordinal, score)` list (the tuple shape of the result-processing branch);
the brute-force fallback, which depends on the external embedder, is an
oracle as well. -/

/-- `SearchResult` of the schema. -/
structure SearchResult where
  document_id : String
  chunk_id : String
  content : Option Text
  metadata : Option Meta
  score : ℚ
  position : Nat
deriving DecidableEq

/-- `GrepSearchResult` of the schema. -/
structure GrepResult where
  document_id : String
  chunk_id : String
  content : Text
  metadata : Option Meta
  match_positions : List (Nat × Nat)
deriving DecidableEq

/-- Environment of one search call over one index. -/
structure SearchEnv where
  searcher : Option (Nat → List (Int × ℚ))
  chunkStore : List (String × ChunkRec)
  chunkMapping : List String
  fallback : Nat → Option Filters → ℚ → Bool → Bool → List SearchResult

/-- `_load_all_chunks`: every chunk record, in sorted file order. -/
def loadAllChunks (store : List (String × ChunkRec)) : List ChunkRec :=
  (sortedByFilename store).map (fun kv => kv.2)

/-- The `chunk_map` dict built from all chunk records, keyed by the
record's own `chunk_id` field (a later duplicate overwrites an earlier
one). -/
def chunkMapOf (store : List (String × ChunkRec)) (cid : String) : Option ChunkRec :=
  ((loadAllChunks store).reverse).find? (fun c => c.chunk_id == cid)

/-- Python truthiness of the optional filter dict. -/
def filtersTruthy : Option Filters → Bool
  | none => false
  | some fs => !fs.isEmpty

/-- One `SearchResult` of the ANN loop. -/
def mkSearchResult (ch : ChunkRec) (cid : String) (score : ℚ)
    (incC incM : Bool) : SearchResult :=
  ⟨ch.document_id, cid, if incC then some ch.content else none,
    if incM then some ch.metadata else none, score, ch.position⟩

/-- Result-processing loop of `SearchService.search` over the ANN
`(ordinal, score)` pairs: drop low scores, skip out-of-range ordinals and
missing chunks, apply the filter, stop at `top_k`.  A filter exception
propagates (the caller catches it and falls back). -/
def annLoop (chunkMap : String → Option ChunkRec) (mapping : List String)
    (filters : Option Filters) (minScore : ℚ) (incC incM : Bool) (topK : Nat) :
    List (Int × ℚ) → List SearchResult → Except String (List SearchResult)
  | [], acc => .ok acc
  | (idx, score) :: rest, acc =>
    if score < minScore then
      annLoop chunkMap mapping filters minScore incC incM topK rest acc
    else if 0 ≤ idx ∧ idx < (mapping.length : Int) then
      let cid := mapping.getD idx.toNat ""
      match chunkMap cid with
      | none => annLoop chunkMap mapping filters minScore incC incM topK rest acc
      | some ch =>
        match (match filters with
          | some fs =>
            if fs.isEmpty then Except.ok true else matchesFilter ch.metadata fs
          | none => Except.ok true) with
        | .error e => .error e
        | .ok keep =>
          if keep then
            let acc2 := acc ++ [mkSearchResult ch cid score incC incM]
            if topK ≤ acc2.length then .ok acc2
            else annLoop chunkMap mapping filters minScore incC incM topK rest acc2
          else annLoop chunkMap mapping filters minScore incC incM topK rest acc
    else annLoop chunkMap mapping filters minScore incC incM topK rest acc

/-- Provenance of one ANN-path result: score kept by the threshold, an
in-range ordinal of the ranking resolving to the chunk id through the
OrdinalMap, a loadable chunk record shaping the result, and a passed
metadata filter whenever the filter is truthy. -/
def AnnProvenance (chunkMap : String → Option ChunkRec) (mapping : List String)
    (filters : Option Filters) (minScore : ℚ) (incC incM : Bool)
    (l : List (Int × ℚ)) (r : SearchResult) : Prop :=
  minScore ≤ r.score ∧
    (∃ idx : Int, (idx, r.score) ∈ l ∧ 0 ≤ idx ∧ idx < (mapping.length : Int) ∧
      mapping.getD idx.toNat "" = r.chunk_id) ∧
    ∃ ch, chunkMap r.chunk_id = some ch ∧
      r = mkSearchResult ch r.chunk_id r.score incC incM ∧
      ∀ fs, filters = some fs → fs.isEmpty = false →
        matchesFilter ch.metadata fs = Except.ok true

deriving instance DecidableEq for Except

/-- Which of the two paths produced the semantic result. -/
inductive SearchOutcome where
  | ann (rs : List SearchResult)
  | fallback
deriving DecidableEq

/-- `SearchService.search`: the ANN path runs when a searcher is available
and the OrdinalMap is non-empty; it requests `top_k * 2` results under a
truthy filter, else `top_k`; the brute-force fallback takes over when the
path raises or produces no results. -/
def searchFull (env : SearchEnv) (topK : Nat) (filters : Option Filters)
    (minScore : ℚ) (incC incM : Bool) : SearchOutcome :=
  match env.searcher with
  | none => .fallback
  | some annF =>
    if env.chunkMapping.isEmpty then .fallback
    else
      let fk := if filtersTruthy filters then topK * 2 else topK
      match annLoop (chunkMapOf env.chunkStore) env.chunkMapping filters minScore
          incC incM topK (annF fk) [] with
      | .error _ => .fallback
      | .ok rs => if rs.isEmpty then .fallback else .ann rs

/-- The result list of `SearchService.search`, with the fallback results
drawn from the oracle. -/
def searchResults (env : SearchEnv) (topK : Nat) (filters : Option Filters)
    (minScore : ℚ) (incC incM : Bool) : List SearchResult :=
  match searchFull env topK filters minScore incC incM with
  | .ann rs => rs
  | .fallback => env.fallback topK filters minScore incC incM

/-- Filtering a chunk list by the metadata predicate, propagating a raised
filter error (`_apply_metadata_filter`, truthy-filter branch). -/
def filterChunks (fs : Filters) : List ChunkRec → Except String (List ChunkRec)
  | [] => .ok []
  | c :: rest => do
    let b ← matchesFilter c.metadata fs
    let r ← filterChunks fs rest
    .ok (if b then c :: r else r)

/-- `_apply_metadata_filter`. -/
def applyMetadataFilter (chunks : List ChunkRec) (filters : Option Filters) :
    Except String (List ChunkRec) :=
  if filtersTruthy filters then
    match filters with
    | some fs => filterChunks fs chunks
    | none => .ok chunks
  else .ok chunks

/-- Case-insensitive matching via lowercasing both sides. -/
def lowerText (t : Text) : Text := t.map Char.toLower

/-- Non-overlapping literal matches of `q` in `t` from offset `i`, with
fuel (`re.finditer` over an escaped pattern). -/
def grepScan (q : Text) : Nat → Text → Nat → List (Nat × Nat)
  | 0, _, _ => []
  | _ + 1, [], _ => []
  | fuel + 1, c :: rest, i =>
    if q.isPrefixOf (c :: rest) then
      (i, i + q.length) ::
        grepScan q fuel ((c :: rest).drop (max 1 q.length)) (i + max 1 q.length)
    else grepScan q fuel rest (i + 1)

/-- All case-insensitive matches of the query in a chunk content. -/
def grepMatches (q t : Text) : List (Nat × Nat) :=
  grepScan (lowerText q) (t.length + 1) (lowerText t) 0

/-- Chunk loop of `grep_search`: keep chunks with at least one match, stop
at `top_k`. -/
def grepLoop (q : Text) (topK : Nat) : List ChunkRec → List GrepResult → List GrepResult
  | [], acc => acc
  | c :: rest, acc =>
    let ms := grepMatches q c.content
    if ms.isEmpty then grepLoop q topK rest acc
    else
      let acc2 := acc ++ [⟨c.document_id, c.chunk_id, c.content, some c.metadata, ms⟩]
      if topK ≤ acc2.length then acc2 else grepLoop q topK rest acc2

/-- `SearchService.grep_search`. -/
def grepSearch (store : List (String × ChunkRec)) (q : Text) (topK : Nat)
    (filters : Option Filters) : Except String (List GrepResult) := do
  let chunks ← applyMetadataFilter (loadAllChunks store) filters
  .ok (grepLoop q topK chunks [])

/-- One entry of the hybrid `score_map`. -/
structure HybEntry where
  document_id : String
  chunk_id : String
  content : Option Text
  metadata : Option Meta
  position : Nat
  semantic_score : ℚ
  keyword_score : ℚ
deriving DecidableEq

/-- The `score_map` entry created for a semantic hit. -/
def semEntry (r : SearchResult) : HybEntry :=
  ⟨r.document_id, r.chunk_id, r.content, r.metadata, r.position, r.score, 0⟩

/-- Python dict assignment keyed by `chunk_id`: replace in place if
present, append otherwise. -/
def mapSet (m : List HybEntry) (cid : String) (e : HybEntry) : List HybEntry :=
  if m.any (fun x => x.chunk_id == cid) then
    m.map (fun x => if x.chunk_id == cid then e else x)
  else m ++ [e]

/-- First phase of `hybrid_search`: insert every semantic hit. -/
def semFold (rs : List SearchResult) : List HybEntry :=
  rs.foldl (fun m r => mapSet m r.chunk_id (semEntry r)) []

/-- Update only the keyword score of an entry. -/
def setKw (kw : ℚ) (e : HybEntry) : HybEntry := { e with keyword_score := kw }

/-- Keyword-score update applied to one entry of the `score_map`. -/
def kwUpdate (cid : String) (kw : ℚ) (x : HybEntry) : HybEntry :=
  if x.chunk_id == cid then setKw kw x else x

/-- Second phase of `hybrid_search`, one grep hit: update the keyword
score of an existing entry, or append a grep-only entry with semantic
score 0 and position 0. -/
def grepFoldStep (m : List HybEntry) (g : GrepResult) (kw : ℚ) : List HybEntry :=
  if m.any (fun x => x.chunk_id == g.chunk_id) then
    m.map (kwUpdate g.chunk_id kw)
  else m ++ [⟨g.document_id, g.chunk_id, some g.content, g.metadata, 0, 0, kw⟩]

/-- Second phase of `hybrid_search`: grep hit at rank `i` of `N` receives
keyword score `(N - i) / N` (`N` replaced by 1 when there are no grep
hits, in which case the loop body never runs). -/
def grepFold (m : List HybEntry) (grs : List GrepResult) : List HybEntry :=
  let n : ℚ := if grs.isEmpty then 1 else (grs.length : ℚ)
  (grs.enum).foldl (fun acc ig => grepFoldStep acc ig.2 ((n - (ig.1 : ℚ)) / n)) m

/-- Combined score of an entry. -/
def combined (wS wK : ℚ) (e : HybEntry) : ℚ :=
  e.semantic_score * wS + e.keyword_score * wK

/-- Shaping of one hybrid entry into the response. -/
def hybEntryToResult (wS wK : ℚ) (e : HybEntry) : SearchResult :=
  ⟨e.document_id, e.chunk_id, e.content, e.metadata, combined wS wK e, e.position⟩

/-- The full `score_map` union: semantic hits inserted first, then the
grep pass. -/
def hybUnion (semRes : List SearchResult) (grepRes : List GrepResult) :
    List HybEntry :=
  grepFold (semFold semRes) grepRes

/-- Erase the keyword score of an entry (used to compare entries modulo
the grep pass). -/
def stripKw (e : HybEntry) : HybEntry := { e with keyword_score := 0 }

/-- Fusion phase of `hybrid_search`: the union keyed by `chunk_id`, sorted
stably by combined score descending, truncated to `top_k`. -/
def hybridCombine (semRes : List SearchResult) (grepRes : List GrepResult)
    (wS wK : ℚ) (topK : Nat) : List SearchResult :=
  let u := hybUnion semRes grepRes
  let sorted := u.mergeSort (fun a b => decide (combined wS wK b ≤ combined wS wK a))
  (sorted.take topK).map (hybEntryToResult wS wK)

/-- `SearchService.hybrid_search`: semantic and grep runs with
`top_k * 3`, then fusion; a raised filter error propagates out of the grep
run. -/
def hybridSearch (env : SearchEnv) (q : Text) (topK : Nat) (wS wK : ℚ)
    (filters : Option Filters) : Except String (List SearchResult) := do
  let fk := topK * 3
  let semRes := searchResults env fk filters 0 true true
  let grs ← grepSearch env.chunkStore q fk filters
  .ok (hybridCombine semRes grs wS wK topK)

/-! ### Spec-side scoring functions (from the wording of the spec) -/

/-- Modelled from the spec: the semantic score of a chunk is its raw score
among the semantic hits, 0 when absent. -/
def specSemScore (semRes : List SearchResult) (cid : String) : ℚ :=
  match semRes.find? (fun r => r.chunk_id == cid) with
  | some r => r.score
  | none => 0

/-- Zero-based rank of the first occurrence of a chunk id in a list. -/
def rankOf (cid : String) : List String → Option Nat
  | [] => none
  | x :: rest => if x = cid then some 0 else (rankOf cid rest).map (fun i => i + 1)

/-- Modelled from the spec: the keyword score of the grep hit ranked `i`
(zero-based) out of `N` grep hits is `(N - i) / N`; 0 when absent. -/
def specKwScore (grepRes : List GrepResult) (cid : String) : ℚ :=
  match rankOf cid (grepRes.map (fun g => g.chunk_id)) with
  | some i => ((grepRes.length : ℚ) - (i : ℚ)) / (grepRes.length : ℚ)
  | none => 0

/-! ### Concrete scenario states used by counterexamples and witnesses -/

/-- A freshly created index with settings `chunk_size = 4`,
`chunk_overlap = 0` (chosen small so chunk counts are easy to read). -/
def state0 : IndexState := ⟨[], [], false, some ⟨0, 0, 4, 0⟩⟩

/-- Constant uuid oracle (never consulted in the scenarios: all ids are
explicit). -/
def noUuid : Nat → String := fun _ => "uuid"

/-- Document `d` with 8 characters of content (2 chunks at size 4) and
metadata `k = 1`. -/
def docD1 : InputDoc := ⟨some "d", "aaaabbbb".toList, [("k", .scalar (.num 1))]⟩

/-- Replacement for `d`: 2 characters of content (1 chunk) and metadata
`k = 2`. -/
def docD2 : InputDoc := ⟨some "d", "cc".toList, [("k", .scalar (.num 2))]⟩

/-- `state0` after `AddDocuments [docD1]`: 2 chunk files, counter 2. -/
def stateAdd1 : IndexState :=
  ((addDocuments state0 [docD1] none none false noUuid 1).getD (state0, [])).1

/-- `stateAdd1` after `AddDocuments [docD2]` with `update_if_exists`:
`d_chunk_0` is overwritten but stale `d_chunk_1` survives with the old
metadata, and the counter grows by 1 without any decrement. -/
def stateAdd2 : IndexState :=
  ((addDocuments stateAdd1 [docD2] none none true noUuid 2).getD (stateAdd1, [])).1

/-- `stateAdd1` after `DeleteDocument d`: no chunk files remain but the
counter still reads 2. -/
def stateDel : IndexState := (deleteDocument stateAdd1 "d").1

/-- Document with 41 identical characters: 11 chunks at size 4, so chunk
positions reach two digits. -/
def docLong : InputDoc := ⟨some "d", List.replicate 41 'a', []⟩

/-- `state0` after adding `docLong`: chunk files `d_chunk_0` …
`d_chunk_10`. -/
def stateLong : IndexState :=
  ((addDocuments state0 [docLong] none none false noUuid 1).getD (state0, [])).1

/-- Chunk records of the search scenarios: both contents contain `x`. -/
def chunkD0 : ChunkRec := ⟨"d_chunk_0", "d", "xa".toList, 0, []⟩

/-- Second chunk, only reachable through grep. -/
def chunkD1 : ChunkRec := ⟨"d_chunk_1", "d", "xb".toList, 1, []⟩

/-- Search environment: an ANN searcher whose ranking holds a single hit
(ordinal 0, score 1/2), two chunk files, an OrdinalMap of length 1 and an
empty fallback. -/
def envTwo : SearchEnv :=
  ⟨some (fun k => ([((0 : Int), (1 : ℚ)/2)]).take k),
   [("d_chunk_0", chunkD0), ("d_chunk_1", chunkD1)],
   ["d_chunk_0"],
   fun _ _ _ _ _ => []⟩

/-- The one ANN-path result of `envTwo` (with `min_score 0`). -/
def resSem0 : SearchResult :=
  ⟨"d", "d_chunk_0", some "xa".toList, some [], (1 : ℚ)/2, 0⟩

/-- The grep hits of `envTwo` for query `x` (both chunks match). -/
def grsW : List GrepResult :=
  [⟨"d", "d_chunk_0", "xa".toList, some [], [(0, 1)]⟩,
   ⟨"d", "d_chunk_1", "xb".toList, some [], [(0, 1)]⟩]

/-- First hybrid result of `envTwo` (semantic and grep rank 1). -/
def resHybA : SearchResult :=
  ⟨"d", "d_chunk_0", some "xa".toList, some [], (3 : ℚ)/2, 0⟩

/-- Second hybrid result of `envTwo` (grep-only: reported position 0
although the chunk record stores position 1). -/
def resHybB : SearchResult :=
  ⟨"d", "d_chunk_1", some "xb".toList, some [], (1 : ℚ)/2, 0⟩

theorem chunkLoop_divergingText_eq_none :
    ∀ (fuel : Nat) (acc : List Text), chunkLoop divergingText 4 3 fuel 0 acc = none := by
  intro fuel
  induction fuel with
  | zero => intro acc; rfl
  | succ f ih =>
    intro acc
    have hfb : findBreak divergingText 4 0 (0 + (4 : Int)) = 3 := by decide
    simp only [chunkLoop, hfb]
    rw [if_pos (by decide), if_neg (by decide)]
    norm_num
    exact ih _

section ChunkerBounds

/-- Bounds of the downward scan: a hit lies between `lo` and the start
index of the scan. -/
theorem rfindAux_bounds (t sep : Text) (lo : Nat) :
    ∀ (j k : Nat), rfindAux t sep lo j = some k → lo ≤ k ∧ k ≤ j := by
  intro j
  induction j with
  | zero =>
    intro k h
    simp only [rfindAux] at h
    split at h
    · rename_i hc
      cases h
      omega
    · cases h
  | succ j ih =>
    intro k h
    simp only [rfindAux] at h
    split at h
    · rename_i hc
      cases h
      omega
    · have := ih k h
      omega

/-- Any non-failure result of `pyRfind` lies in the normalised window. -/
theorem pyRfind_bounds (t sep : Text) (a b : Int) (p : Int)
    (hp : pyRfind t sep a b = p) (hne : p ≠ -1) :
    (normIdx t.length a : Int) ≤ p ∧
      p + sep.length ≤ (normIdx t.length b : Int) := by
  unfold pyRfind at hp
  by_cases hlen : sep.length ≤ normIdx t.length b
  · rw [if_pos hlen] at hp
    rcases hmatch : rfindAux t sep (normIdx t.length a) (normIdx t.length b - sep.length) with _ | k
    · rw [hmatch] at hp
      exact absurd hp.symm hne
    · rw [hmatch] at hp
      have hb := rfindAux_bounds t sep _ _ _ hmatch
      subst hp
      push_cast
      omega
  · rw [if_neg hlen] at hp
    exact absurd hp.symm hne

/-- The break point chosen by `findBreak` when the window is fully inside
the text: it lies strictly above `start + s / 2` and at most at `e`. -/
theorem findBreak_bounds (t : Text) (s : Nat) (start : Int) (hs : 0 < s)
    (hstart : 0 ≤ start) (hwin : start + (s : Int) < (t.length : Int)) :
    start + ((s / 2 : Nat) : Int) + 1 ≤ findBreak t s start (start + (s : Int)) ∧
      findBreak t s start (start + (s : Int)) ≤ start + (s : Int) := by
  have hlo : (normIdx t.length (start + ((s / 2 : Nat) : Int)) : Int)
      = start + ((s / 2 : Nat) : Int) := by
    unfold normIdx
    have h2 : ((s / 2 : Nat) : Int) ≤ (s : Int) := by
      have := Nat.div_le_self s 2
      omega
    rw [if_neg (by omega)]
    have : (start + ((s / 2 : Nat) : Int)).toNat ≤ t.length := by omega
    omega
  have hhi : (normIdx t.length (start + (s : Int)) : Int) = start + (s : Int) := by
    unfold normIdx
    rw [if_neg (by omega)]
    omega
  have key : ∀ seps : List Text, (∀ sep ∈ seps, 1 ≤ sep.length) →
      start + ((s / 2 : Nat) : Int) + 1 ≤
        findBreakAux t (start + ((s / 2 : Nat) : Int)) (start + (s : Int)) seps ∧
      findBreakAux t (start + ((s / 2 : Nat) : Int)) (start + (s : Int)) seps ≤
        start + (s : Int) := by
    intro seps hlen1
    induction seps with
    | nil =>
      simp only [findBreakAux]
      constructor
      · have h2 : ((s / 2 : Nat) : Int) < (s : Int) := by
          have := Nat.div_lt_self hs (show 1 < 2 by omega)
          omega
        omega
      · omega
    | cons sep rest ih =>
      simp only [findBreakAux]
      rcases hpos : pyRfind t sep (start + ((s / 2 : Nat) : Int)) (start + (s : Int)) with _ | _
      all_goals rename_i hv
      · -- result is ofNat hv, in particular nonnegative, hence ≠ -1
        have hne : (Int.ofNat hv) ≠ -1 := by simp
        have hb := pyRfind_bounds t sep _ _ _ hpos hne
        rw [hlo, hhi] at hb
        have hsep := hlen1 sep (List.mem_cons_self _ _)
        rw [if_neg (by omega)]
        constructor
        · omega
        · omega
      · -- negSucc case: pyRfind only returns -1 among negatives
        have : Int.negSucc hv = -1 := by
          unfold pyRfind at hpos
          by_cases hc : sep.length ≤ normIdx t.length (start + (s : Int))
          · rw [if_pos hc] at hpos
            rcases hm : rfindAux t sep (normIdx t.length (start + ((s / 2 : Nat) : Int)))
                (normIdx t.length (start + (s : Int)) - sep.length) with _ | k
            · rw [hm] at hpos
              exact hpos.symm
            · rw [hm] at hpos
              have hk : ¬ ((k : Int) = Int.negSucc hv) := by simp
              exact absurd hpos hk
          · rw [if_neg hc] at hpos
            exact hpos.symm
        by_cases hz : Int.negSucc hv = -1
        · rw [if_pos hz]
          exact ih (fun x hx => hlen1 x (List.mem_cons_of_mem _ hx))
        · exact absurd this hz
  have hseps : ∀ sep ∈ separators, 1 ≤ sep.length := by decide
  have hgoal := key separators hseps
  exact hgoal

/-- Slices of the text are contiguous substrings of it. -/
theorem pySlice_isInfix (t : Text) (a b : Int) : pySlice t a b <:+: t := by
  unfold pySlice
  exact ((List.take_prefix _ _).isInfix).trans ((List.drop_suffix _ _).isInfix)

/-- Final slices of the text are contiguous substrings of it. -/
theorem pySliceFrom_isInfix (t : Text) (a : Int) : pySliceFrom t a <:+: t := by
  unfold pySliceFrom
  exact (List.drop_suffix _ _).isInfix

/-- With `chunk_overlap ≤ chunk_size / 2` the cursor advances by at least
one position per iteration, so fuel `t.length - start + 1` completes. -/
theorem chunkLoop_total (t : Text) (s o : Nat) (hs : 0 < s) (ho : o ≤ s / 2) :
    ∀ (fuel : Nat) (start : Int) (acc : List Text), 0 ≤ start →
      (t.length : Int) < start + fuel → 1 ≤ fuel →
      (∀ c ∈ acc, c <:+: t) →
      ∃ r, chunkLoop t s o fuel start acc = some r ∧ ∀ c ∈ r, c <:+: t := by
  intro fuel
  induction fuel with
  | zero => intro start acc _ _ h1; omega
  | succ f ih =>
    intro start acc hstart hfuel _ hacc
    by_cases hlt : start < (t.length : Int)
    · by_cases hend : (t.length : Int) ≤ start + (s : Int)
      · refine ⟨acc ++ [pySliceFrom t start], ?_, ?_⟩
        · simp only [chunkLoop]
          rw [if_pos hlt, if_pos hend]
        · intro c hc
          rcases List.mem_append.1 hc with h | h
          · exact hacc c h
          · rcases List.mem_singleton.1 h with rfl
            exact pySliceFrom_isInfix t start
      · have hwin : start + (s : Int) < (t.length : Int) := by omega
        have hb := findBreak_bounds t s start hs hstart hwin
        set bp := findBreak t s start (start + (s : Int)) with hbp
        have hadv : start + 1 ≤ bp - (o : Int) := by
          have h2 : (o : Int) ≤ ((s / 2 : Nat) : Int) := by exact_mod_cast ho
          omega
        have hrec := ih (bp - (o : Int)) (acc ++ [pySlice t start bp])
          (by omega) (by omega) (by omega)
          (by
            intro c hc
            rcases List.mem_append.1 hc with h | h
            · exact hacc c h
            · rcases List.mem_singleton.1 h with rfl
              exact pySlice_isInfix t start bp)
        rcases hrec with ⟨r, hr, hrin⟩
        refine ⟨r, ?_, hrin⟩
        simp only [chunkLoop]
        rw [if_pos hlt, if_neg (by omega)]
        exact hr
    · refine ⟨acc, ?_, hacc⟩
      simp only [chunkLoop]
      rw [if_neg hlt]

end ChunkerBounds

/-- C1 (counterexample).  With text `"ab cdefgh"`, `chunk_size = 4` and
`chunk_overlap = 3` — parameters satisfying `0 ≤ o < s` — the chunker loop
never terminates: no amount of fuel makes it return. -/
theorem chunker_c1_counterexample :
    (0 ≤ 3 ∧ 3 < 4) ∧
      ¬ ∃ (fuel : Nat) (r : List Text), chunkLoop divergingText 4 3 fuel 0 [] = some r := by
  refine ⟨by omega, ?_⟩
  rintro ⟨fuel, r, hr⟩
  rw [chunkLoop_divergingText_eq_none fuel []] at hr
  cases hr

/-- C1 (amended).  For every text and every `chunk_size s > 0`, the chunker
terminates whenever `chunk_overlap ≤ s / 2` (integer division), and every
emitted chunk is a contiguous substring of the input; for
`s / 2 < chunk_overlap < s` the cursor need not advance and the loop can
run forever. -/
theorem chunker_terminates_of_overlap_le_half (t : Text) (s o : Nat)
    (hs : 0 < s) (ho : o ≤ s / 2) :
    ∃ r, chunkText t s o = some r ∧ ∀ c ∈ r, c <:+: t := by
  unfold chunkText
  by_cases hemp : t.isEmpty
  · rw [if_pos hemp]
    exact ⟨[], rfl, by intro c hc; cases hc⟩
  · rw [if_neg hemp]
    exact chunkLoop_total t s o hs ho (t.length + o + 2) 0 [] (by omega)
      (by omega) (by omega) (by intro c hc; cases hc)

/-- C1 (witness): the amended theorem applied at `"hello world"`,
`s = 512`, `o = 64`. -/
theorem chunker_terminates_witness :
    ∃ r, chunkText "hello world".toList 512 64 = some r ∧
      ∀ c ∈ r, c <:+: "hello world".toList :=
  chunker_terminates_of_overlap_le_half "hello world".toList 512 64 (by omega) (by omega)

/-- C3 (counterexample).  A predicate whose only condition uses the
unrecognized operator `"matches"` evaluates to a plain pass (`.ok true`)
on the empty metadata map: no error of any kind is raised and the
predicate is silently treated as satisfied. -/
theorem filter_c3_counterexample :
    "matches" ∉ recognizedOps ∧
      matchesFilter []
        [("f", Condition.ops [("matches", JValue.scalar (.num 1))])] = .ok true := by
  exact ⟨by decide, rfl⟩

/-- C3 (amended).  An operator name outside the recognized list is
silently skipped by `_matches_filter`: a condition consisting of such an
operator evaluates to `.ok true` for every metadata map and operand,
instead of raising a validation error. -/
theorem filter_unknown_op_silently_passes (m : Meta) (field op : String)
    (exp : JValue) (hop : op ∉ recognizedOps) :
    matchesFilter m [(field, Condition.ops [(op, exp)])] = .ok true := by
  have hs : ¬ (op = "==" ∨ op = "!=" ∨ op = "<" ∨ op = "<=" ∨ op = ">" ∨
      op = ">=" ∨ op = "in" ∨ op = "not_in" ∨ op = "contains" ∨
      op = "starts_with" ∨ op = "ends_with" ∨ op = "is_true" ∨
      op = "is_false") := by
    simpa [recognizedOps] using hop
  push_neg at hs
  obtain ⟨e1, e2, e3, e4, e5, e6, e7, e8, e9, e10, e11, e12, e13⟩ := hs
  simp [matchesFilter, evalOps, evalOp, e1, e2, e3, e4, e5, e6, e7, e8, e9,
    e10, e11, e12, e13]
  rfl

/-- C3 (witness): the amended theorem applied to the operator
`"matches"` on the empty metadata map. -/
theorem filter_unknown_op_witness :
    matchesFilter []
      [("g", Condition.ops [("matches", JValue.scalar (.str "x"))])] = .ok true :=
  filter_unknown_op_silently_passes [] "g" "matches" (JValue.scalar (.str "x"))
    (by decide)

/-- C6 (counterexample).  The settings combination `chunk_size = 64`,
`chunk_overlap = 512` — with `chunk_overlap ≥ chunk_size` — passes
`IndexSettings` validation: there is no cross-field check. -/
theorem index_settings_c6_counterexample :
    indexSettingsValid 32 64 64 512 = true ∧ (64 : Int) ≤ 512 := by decide

/-- C6 (amended).  `IndexSettings` validation only checks each numeric
field against its own interval; every combination with all four fields in
range is accepted, including those with `chunk_overlap ≥ chunk_size`. -/
theorem index_settings_accepts_all_in_range (gd bc cs co : Int)
    (h1 : 8 ≤ gd) (h2 : gd ≤ 128) (h3 : 32 ≤ bc) (h4 : bc ≤ 512)
    (h5 : 64 ≤ cs) (h6 : cs ≤ 4096) (h7 : 0 ≤ co) (h8 : co ≤ 512) :
    indexSettingsValid gd bc cs co = true := by
  simp only [indexSettingsValid, Bool.and_eq_true, decide_eq_true_eq]
  omega

/-- C6 (witness): validation accepts `chunk_size = 64`,
`chunk_overlap = 512`. -/
theorem index_settings_accepts_witness :
    indexSettingsValid 32 64 64 512 = true :=
  index_settings_accepts_all_in_range 32 64 64 512 (by omega) (by omega)
    (by omega) (by omega) (by omega) (by omega) (by omega) (by omega)

section StoreLemmas

/-- Searching the upserted map for the key finds the fresh value exactly
when the key was present. -/
theorem find?_map_upsert {α : Type} (k : String) (v : α) :
    ∀ st : List (String × α),
      ((st.map (fun kv => if kv.1 == k then (k, v) else kv)).find?
          (fun kv => kv.1 == k))
        = if st.any (fun kv => kv.1 == k) then some (k, v) else none := by
  intro st
  induction st with
  | nil => simp
  | cons a st ih =>
    by_cases ha : a.1 = k
    · simp [ha]
    · have hb : (a.1 == k) = false := beq_eq_false_iff_ne.2 ha
      simp only [List.map_cons, List.any_cons, hb, if_false, Bool.false_or]
      rw [List.find?_cons_of_neg _ (by simp [hb]), ih]

/-- Search skips a block in which the predicate never holds. -/
theorem find?_append_right {α : Type} (p : α → Bool) :
    ∀ (l l2 : List α), l.any p = false → (l ++ l2).find? p = l2.find? p := by
  intro l l2 h
  induction l with
  | nil => rfl
  | cons a l ih =>
    simp only [List.any_cons, Bool.or_eq_false_iff] at h
    rw [List.cons_append, List.find?_cons_of_neg _ (by simp [h.1])]
    exact ih h.2

/-- Reading back the key just written returns the value written. -/
theorem fsGet_fsSet_self {α : Type} (st : List (String × α)) (k : String) (v : α) :
    fsGet (fsSet st k v) k = some v := by
  unfold fsGet fsSet
  by_cases h : st.any (fun kv => kv.1 == k)
  · rw [if_pos h, find?_map_upsert, if_pos h]
    rfl
  · rw [if_neg h, find?_append_right _ _ _ (by rwa [Bool.not_eq_true] at h)]
    rw [List.find?_cons_of_pos _ (by simp)]
    rfl

/-- An entry of the upserted map is the written pair or an original
entry. -/
theorem fsSet_mem {α : Type} (st : List (String × α)) (k : String) (v : α) :
    ∀ kv ∈ fsSet st k v, kv = (k, v) ∨ kv ∈ st := by
  intro kv hkv
  unfold fsSet at hkv
  split at hkv
  · rcases List.mem_map.1 hkv with ⟨x, hx, hmap⟩
    by_cases hx1 : x.1 == k
    · rw [if_pos hx1] at hmap
      exact Or.inl hmap.symm
    · rw [if_neg hx1] at hmap
      exact Or.inr (hmap ▸ hx)
  · rcases List.mem_append.1 hkv with h | h
    · exact Or.inr h
    · exact Or.inl (List.mem_singleton.1 h)

/-- Every entry after a chunk-write pass is an original entry or carries
the metadata snapshot written by the pass. -/
theorem writeChunks_fold_mem (docId : String) (md : Meta) :
    ∀ (ps : List (Nat × Text)) (chunks : List (String × ChunkRec)) (kv : String × ChunkRec),
      kv ∈ ps.foldl
        (fun acc ic =>
          fsSet acc (chunkKey docId ic.1)
            ⟨chunkKey docId ic.1, docId, ic.2, ic.1, md⟩)
        chunks →
      kv ∈ chunks ∨ kv.2.metadata = md := by
  intro ps
  induction ps with
  | nil => intro chunks kv hkv; exact Or.inl hkv
  | cons p ps ih =>
    intro chunks kv hkv
    rw [List.foldl_cons] at hkv
    rcases ih _ kv hkv with h | h
    · rcases fsSet_mem _ _ _ kv h with h2 | h2
      · exact Or.inr (by rw [h2])
      · exact Or.inl h2
    · exact Or.inr h

/-- Every entry after `writeChunks` is an original entry or carries the
written metadata snapshot. -/
theorem writeChunks_mem (chunks : List (String × ChunkRec)) (docId : String)
    (md : Meta) (chs : List Text) :
    ∀ kv ∈ writeChunks chunks docId md chs, kv ∈ chunks ∨ kv.2.metadata = md := by
  intro kv hkv
  exact writeChunks_fold_mem docId md chs.enum chunks kv hkv

/-- Entries surviving a glob deletion do not match the glob. -/
theorem fsDelPre_mem {α : Type} (st : List (String × α)) (p : String) :
    ∀ kv ∈ fsDelPre st p, kv ∈ st ∧ strPre p kv.1 = false := by
  intro kv hkv
  unfold fsDelPre at hkv
  have := List.mem_filter.1 hkv
  exact ⟨this.1, by simpa using this.2⟩

end StoreLemmas

/-- C9 (amended).  A chunk record carries its parent document's effective
metadata after the metadata-writing operations, as long as the operation
actually rewrites the chunk files: after `UpdateMetadataOnly`, after
`UpdateDocument` that updates content or metadata, and after
`AddDocuments` of a document that has no stale chunk files under its glob
prefix (`AddDocuments` on an existing document with fewer new chunks than
old ones leaves stale chunks with the previous metadata — see the
counterexample). -/
theorem chunk_metadata_matches_document :
    (∀ (st : IndexState) (docId : String) (md : Meta) (merge : Bool) (now : Nat)
        (st2 : IndexState) (eff : Meta),
      st.chunksDir = true →
      updateMetadataOnly st docId md merge now = some (st2, eff) →
      (∃ docRec, fsGet st2.docs docId = some docRec ∧ docRec.metadata = eff) ∧
        ∀ kv ∈ st2.chunks, strPre (chunkPre docId) kv.1 = true →
          kv.2.metadata = eff) ∧
    (∀ (st : IndexState) (docId : String) (contentArg : Option Text)
        (metadataArg : Option Meta) (mergeMeta : Bool) (now : Nat)
        (st2 : IndexState) (res : AddResult),
      st.chunksDir = true →
      (contentArg.isSome ∨ metadataArg.isSome) →
      updateDocument st docId contentArg metadataArg mergeMeta now = .ok st2 res →
      ∃ docRec, fsGet st2.docs docId = some docRec ∧
        ∀ kv ∈ st2.chunks, strPre (chunkPre docId) kv.1 = true →
          kv.2.metadata = docRec.metadata) ∧
    (∀ (st : IndexState) (d : InputDoc) (csA coA : Option Nat) (uie : Bool)
        (uf : Nat → String) (now : Nat) (st2 : IndexState) (res : List AddResult),
      fsGet st.docs (resolveId uf 0 d) = none →
      (∀ kv ∈ st.chunks, strPre (chunkPre (resolveId uf 0 d)) kv.1 = false) →
      addDocuments st [d] csA coA uie uf now = some (st2, res) →
      ∃ docRec, fsGet st2.docs (resolveId uf 0 d) = some docRec ∧
        docRec.metadata = d.metadata ∧
        ∀ kv ∈ st2.chunks, strPre (chunkPre (resolveId uf 0 d)) kv.1 = true →
          kv.2.metadata = d.metadata) := by
  refine ⟨?_, ?_, ?_⟩
  · -- update_metadata_only
    intro st docId md merge now st2 eff hdir hrun
    unfold updateMetadataOnly at hrun
    rcases hget : fsGet st.docs docId with _ | existing
    · rw [hget] at hrun; cases hrun
    · rw [hget] at hrun
      dsimp only at hrun
      rw [hdir, if_pos rfl] at hrun
      simp only [Option.some_inj, Prod.mk.injEq] at hrun
      obtain ⟨hst2, heff⟩ := hrun
      subst heff
      rw [← hst2]
      constructor
      · exact ⟨_, fsGet_fsSet_self _ _ _, rfl⟩
      · intro kv hkv hpre
        rcases List.mem_map.1 hkv with ⟨x, _, hmap⟩
        by_cases hx : strPre (chunkPre docId) x.1 = true
        · rw [if_pos hx] at hmap
          rw [← hmap]
        · rw [if_neg hx] at hmap
          rw [← hmap] at hpre
          exact absurd hpre hx
  · -- update_document
    intro st docId contentArg metadataArg mergeMeta now st2 res hdir hsome hrun
    unfold updateDocument at hrun
    rcases hget : fsGet st.docs docId with _ | existing
    · rw [hget] at hrun; cases hrun
    · rw [hget] at hrun
      rcases contentArg with _ | content
      · -- metadata-only path
        rcases metadataArg with _ | md
        · rcases hsome with h | h <;> simp at h
        · dsimp only at hrun
          rw [if_pos (And.intro hdir (Option.isSome_some))] at hrun
          simp only [UpdateOutcome.ok.injEq] at hrun
          obtain ⟨hst2, _⟩ := hrun
          rw [← hst2]
          refine ⟨_, fsGet_fsSet_self _ _ _, ?_⟩
          intro kv hkv hpre
          rcases List.mem_map.1 hkv with ⟨x, _, hmap⟩
          by_cases hx : strPre (chunkPre docId) x.1 = true
          · rw [if_pos hx] at hmap
            rw [← hmap]
          · rw [if_neg hx] at hmap
            rw [← hmap] at hpre
            exact absurd hpre hx
      · -- content path
        dsimp only at hrun
        rcases hch : chunkText content (stateSettings st).1 (stateSettings st).2 with _ | chs
        · rw [hch] at hrun
          dsimp only at hrun
          cases hrun
        · rw [hch] at hrun
          dsimp only at hrun
          rw [if_neg (show ¬(¬st.chunksDir = true ∧ ¬chs.isEmpty = true) from
            fun hcc => hcc.1 hdir)] at hrun
          simp only [UpdateOutcome.ok.injEq] at hrun
          obtain ⟨hst2, _⟩ := hrun
          rw [← hst2]
          refine ⟨_, fsGet_fsSet_self _ _ _, ?_⟩
          intro kv hkv hpre
          rcases writeChunks_mem _ _ _ _ kv hkv with h | h
          · rw [hdir, if_pos rfl] at h
            have := fsDelPre_mem _ _ kv h
            rw [this.2] at hpre
            cases hpre
          · exact h
  · -- add_documents of a fresh document
    intro st d csA coA uie uf now st2 res hfresh hnochunks hrun
    unfold addDocuments at hrun
    dsimp only at hrun
    rcases hloop : addDocsLoop uie (orDefault csA (stateSettings st).1)
        (orDefault coA (stateSettings st).2) now uf [d] 0
        { st with chunksDir := true } [] 0 0 with _ | out
    · rw [hloop] at hrun; cases hrun
    · rw [hloop] at hrun
      -- invert one step of the loop
      unfold addDocsLoop at hloop
      rw [if_neg (by simp [hfresh])] at hloop
      rcases hch : chunkText d.content (orDefault csA (stateSettings st).1)
          (orDefault coA (stateSettings st).2) with _ | chs
      · rw [hch] at hloop; cases hloop
      · rw [hch] at hloop
        unfold addDocsLoop at hloop
        simp only [hfresh, Option.some_inj] at hloop
        obtain ⟨st1, res1, tc1, tch1⟩ := out
        simp only [Prod.mk.injEq] at hloop
        obtain ⟨hst1, _⟩ := hloop
        have hdocs : st1.docs = fsSet st.docs (resolveId uf 0 d)
            ⟨resolveId uf 0 d, d.content, d.metadata, chs.length, now, now⟩ := by
          rw [← hst1]
        have hchunks : st1.chunks =
            writeChunks st.chunks (resolveId uf 0 d) d.metadata chs := by
          rw [← hst1]
        dsimp only at hrun
        have hfacts : st2.docs = st1.docs ∧ st2.chunks = st1.chunks := by
          rcases hm : st1.meta with _ | m
          · rw [hm] at hrun
            simp only [Option.some_inj, Prod.mk.injEq] at hrun
            obtain ⟨h1, _⟩ := hrun
            rw [← h1]
            exact ⟨rfl, rfl⟩
          · rw [hm] at hrun
            simp only [Option.some_inj, Prod.mk.injEq] at hrun
            obtain ⟨h1, _⟩ := hrun
            rw [← h1]
            exact ⟨rfl, rfl⟩
        rw [hfacts.1, hfacts.2, hdocs, hchunks]
        refine ⟨_, fsGet_fsSet_self _ _ _, rfl, ?_⟩
        intro kv hkv hpre
        rcases writeChunks_mem _ _ _ _ kv hkv with h | h
        · rw [hnochunks kv h] at hpre
          cases hpre
        · exact h

/-- C9 (counterexample).  Adding document `d` (2 chunks, metadata `k=1`)
and then re-adding it with `update_if_exists` (1 chunk, metadata `k=2`)
leaves the stale chunk file `d_chunk_1` carrying the old metadata while
the document record carries the new one: `add_documents` does not delete
a replaced document's prior chunks. -/
theorem add_documents_stale_chunk_c9_counterexample :
    ∃ ch docRec, fsGet stateAdd2.chunks "d_chunk_1" = some ch ∧
      fsGet stateAdd2.docs "d" = some docRec ∧
      ch.document_id = "d" ∧ ch.metadata ≠ docRec.metadata := by
  refine ⟨_, _, rfl, rfl, rfl, ?_⟩
  decide

/-- C9 (witness): the three branches of the amended theorem applied to
concrete states. -/
theorem chunk_metadata_matches_document_witness :
    (∃ st2 eff, updateMetadataOnly stateAdd1 "d" [("k2", .scalar (.num 9))] true 5
        = some (st2, eff) ∧
      (∃ docRec, fsGet st2.docs "d" = some docRec ∧ docRec.metadata = eff) ∧
      ∀ kv ∈ st2.chunks, strPre (chunkPre "d") kv.1 = true → kv.2.metadata = eff) ∧
    (∃ st2 res, updateDocument stateAdd1 "d" none (some [("k", .scalar (.num 7))]) true 6
        = .ok st2 res ∧
      ∃ docRec, fsGet st2.docs "d" = some docRec ∧
        ∀ kv ∈ st2.chunks, strPre (chunkPre "d") kv.1 = true →
          kv.2.metadata = docRec.metadata) ∧
    (∃ st2 res, addDocuments state0 [docD1] none none false noUuid 1 = some (st2, res) ∧
      ∃ docRec, fsGet st2.docs (resolveId noUuid 0 docD1) = some docRec ∧
        docRec.metadata = docD1.metadata ∧
        ∀ kv ∈ st2.chunks, strPre (chunkPre (resolveId noUuid 0 docD1)) kv.1 = true →
          kv.2.metadata = docD1.metadata) := by
  refine ⟨⟨_, _, rfl, ?_⟩, ⟨_, _, rfl, ?_⟩, ⟨_, _, rfl, ?_⟩⟩
  · exact (chunk_metadata_matches_document.1 stateAdd1 "d" _ true 5 _ _ rfl rfl)
  · exact (chunk_metadata_matches_document.2.1 stateAdd1 "d" none _ true 6 _ _ rfl
      (Or.inr Option.isSome_some) rfl)
  · exact (chunk_metadata_matches_document.2.2 state0 docD1 none none false noUuid 1 _ _
      rfl (by intro kv hkv; cases hkv) rfl)

section NatReprFacts

/-- The fueled digit loop computes the reversed decimal digit characters,
for sufficient fuel. -/
theorem toDigitsCore_eq_digits :
    ∀ (f n : Nat) (acc : List Char), n < f → 0 < n →
      Nat.toDigitsCore 10 f n acc =
        ((Nat.digits 10 n).map Nat.digitChar).reverse ++ acc := by
  intro f
  induction f with
  | zero => intro n acc hf _; omega
  | succ f ih =>
    intro n acc hf hn
    have hd : Nat.digits 10 n = n % 10 :: Nat.digits 10 (n / 10) :=
      Nat.digits_def' (by norm_num) hn
    rw [Nat.toDigitsCore]
    by_cases h0 : n / 10 = 0
    · rw [if_pos h0, hd, h0]
      simp
    · rw [if_neg h0]
      have h1 : n / 10 < f := by
        have := Nat.div_lt_self hn (show 1 < 10 by norm_num)
        omega
      rw [ih (n / 10) _ h1 (Nat.pos_of_ne_zero h0), hd]
      simp

/-- Decimal representation of a positive natural, via `Nat.digits`. -/
theorem repr_eq_digits (n : Nat) (hn : 0 < n) :
    Nat.repr n = (((Nat.digits 10 n).map Nat.digitChar).reverse).asString := by
  unfold Nat.repr Nat.toDigits
  rw [toDigitsCore_eq_digits (n + 1) n [] (by omega) hn, List.append_nil]

/-- The digit characters are pairwise distinct below 10. -/
theorem digitChar_inj_lt :
    ∀ a < 10, ∀ b < 10, Nat.digitChar a = Nat.digitChar b → a = b := by decide

/-- Mapping `digitChar` over digit lists is injective. -/
theorem map_digitChar_inj :
    ∀ (l1 l2 : List Nat), (∀ x ∈ l1, x < 10) → (∀ x ∈ l2, x < 10) →
      l1.map Nat.digitChar = l2.map Nat.digitChar → l1 = l2 := by
  intro l1
  induction l1 with
  | nil =>
    intro l2 _ _ h
    cases l2 with
    | nil => rfl
    | cons b l2 => simp at h
  | cons a l1 ih =>
    intro l2 h1 h2 h
    cases l2 with
    | nil => simp at h
    | cons b l2 =>
      simp only [List.map_cons, List.cons.injEq] at h
      have hab : a = b :=
        digitChar_inj_lt a (h1 a (List.mem_cons_self _ _)) b
          (h2 b (List.mem_cons_self _ _)) h.1
      have ht : l1 = l2 :=
        ih l2 (fun x hx => h1 x (List.mem_cons_of_mem _ hx))
          (fun x hx => h2 x (List.mem_cons_of_mem _ hx)) h.2
      rw [hab, ht]

/-- The decimal string representation of naturals is injective, so the
chunk file names `{doc}_chunk_{i}` of one document are pairwise
distinct. -/
theorem nat_repr_injective (m n : Nat) (h : Nat.repr m = Nat.repr n) : m = n := by
  have digitsLt : ∀ k : Nat, ∀ x ∈ Nat.digits 10 k, x < 10 :=
    fun k x hx => Nat.digits_lt_base (by norm_num) hx
  rcases Nat.eq_zero_or_pos m with hm | hm <;> rcases Nat.eq_zero_or_pos n with hn | hn
  · omega
  · exfalso
    subst hm
    rw [repr_eq_digits n hn] at h
    have hl := congrArg String.toList h
    rw [List.toList_asString] at hl
    have : Nat.digits 10 n = [0] := by
      have h0 : ((Nat.digits 10 n).map Nat.digitChar).reverse = ['0'] := hl.symm ▸ by rfl
      have h1 : (Nat.digits 10 n).map Nat.digitChar = ['0'] := by
        have := congrArg List.reverse h0
        simpa using this
      have h2 : (Nat.digits 10 n).map Nat.digitChar = [0].map Nat.digitChar := by
        simpa using h1
      exact map_digitChar_inj _ _ (digitsLt n) (by intro x hx; simp at hx; omega) h2
    have := Nat.ofDigits_digits 10 n
    rw [this.symm, ‹Nat.digits 10 n = [0]›] at hn
    simp [Nat.ofDigits] at hn
  · exfalso
    subst hn
    rw [repr_eq_digits m hm] at h
    have hl := congrArg String.toList h
    rw [List.toList_asString] at hl
    have : Nat.digits 10 m = [0] := by
      have h0 : ((Nat.digits 10 m).map Nat.digitChar).reverse = ['0'] := hl ▸ by rfl
      have h1 : (Nat.digits 10 m).map Nat.digitChar = ['0'] := by
        have := congrArg List.reverse h0
        simpa using this
      have h2 : (Nat.digits 10 m).map Nat.digitChar = [0].map Nat.digitChar := by
        simpa using h1
      exact map_digitChar_inj _ _ (digitsLt m) (by intro x hx; simp at hx; omega) h2
    have := Nat.ofDigits_digits 10 m
    rw [this.symm, ‹Nat.digits 10 m = [0]›] at hm
    simp [Nat.ofDigits] at hm
  · rw [repr_eq_digits m hm, repr_eq_digits n hn] at h
    have hl : ((Nat.digits 10 m).map Nat.digitChar).reverse
        = ((Nat.digits 10 n).map Nat.digitChar).reverse := by
      have := congrArg String.toList h
      rwa [List.toList_asString, List.toList_asString] at this
    have hmap := List.reverse_injective hl
    have hdig := map_digitChar_inj _ _ (digitsLt m) (digitsLt n) hmap
    rw [← Nat.ofDigits_digits 10 m, ← Nat.ofDigits_digits 10 n, hdig]

end NatReprFacts

section ChunkKeyFacts

/-- String concatenation concatenates code-point lists. -/
theorem string_data_append (s t : String) : (s ++ t).data = s.data ++ t.data :=
  String.data_append s t

/-- Chunk file names of one document are injective in the position. -/
theorem chunkKey_injective (d : String) (i j : Nat) (h : chunkKey d i = chunkKey d j) :
    i = j := by
  unfold chunkKey at h
  have hl := congrArg String.data h
  rw [string_data_append, string_data_append, string_data_append,
    string_data_append, List.append_assoc, List.append_assoc] at hl
  have := List.append_cancel_left hl
  have := List.append_cancel_left this
  have hs : Nat.repr i = Nat.repr j := by
    cases hi : Nat.repr i
    cases hj : Nat.repr j
    rw [hi, hj] at this
    simp only at this
    rw [this]
  exact nat_repr_injective i j hs

end ChunkKeyFacts

section CountingLemmas

/-- An absent key means no entry matches it. -/
theorem fsGet_eq_none_iff {α : Type} (st : List (String × α)) (k : String) :
    fsGet st k = none ↔ st.any (fun kv => kv.1 == k) = false := by
  unfold fsGet
  constructor
  · intro h
    rcases hf : st.find? (fun kv => kv.1 == k) with _ | x
    · rw [List.any_eq_false]
      intro kv hkv
      have := List.find?_eq_none.1 hf kv hkv
      simpa using this
    · rw [hf] at h
      cases h
  · intro h
    rw [List.find?_eq_none.2]
    · rfl
    · intro kv hkv
      rw [List.any_eq_false] at h
      exact h kv hkv

/-- Writing a fresh file grows the directory by one entry. -/
theorem fsSet_length_fresh {α : Type} (st : List (String × α)) (k : String) (v : α)
    (h : fsGet st k = none) : (fsSet st k v).length = st.length + 1 := by
  unfold fsSet
  rw [if_neg (by rw [(fsGet_eq_none_iff st k).1 h]; exact Bool.false_ne_true)]
  simp

/-- Overwriting an existing file leaves the entry count unchanged. -/
theorem fsSet_length_present {α : Type} (st : List (String × α)) (k : String) (v : α)
    (h : fsGet st k ≠ none) : (fsSet st k v).length = st.length := by
  unfold fsSet
  rcases hb : st.any (fun kv => kv.1 == k) with _ | _
  · exact absurd ((fsGet_eq_none_iff st k).2 hb) h
  · simp

/-- Replacement in place is invisible to searches for another key. -/
theorem find?_map_upsert_other {α : Type} (k k2 : String) (v : α) (hne : k2 ≠ k) :
    ∀ st : List (String × α),
      (st.map (fun kv => if kv.1 == k then (k, v) else kv)).find?
        (fun kv => kv.1 == k2) = st.find? (fun kv => kv.1 == k2) := by
  intro st
  induction st with
  | nil => rfl
  | cons a st ih =>
    simp only [List.map_cons]
    by_cases ha : a.1 = k
    · rw [if_pos (by simp [ha])]
      rw [List.find?_cons_of_neg _ (by simp [Ne.symm hne]),
        List.find?_cons_of_neg _ (by simp [ha]; exact Ne.symm hne)]
      exact ih
    · rw [if_neg (by simp [ha])]
      by_cases hpa : a.1 = k2
      · rw [List.find?_cons_of_pos _ (by simp [hpa]),
          List.find?_cons_of_pos _ (by simp [hpa])]
      · rw [List.find?_cons_of_neg _ (by simp [hpa]),
          List.find?_cons_of_neg _ (by simp [hpa])]
        exact ih

/-- Appending an entry for another key is invisible to searches. -/
theorem find?_append_other {α : Type} (k k2 : String) (v : α) (hne : k2 ≠ k) :
    ∀ st : List (String × α),
      (st ++ [(k, v)]).find? (fun kv => kv.1 == k2) = st.find? (fun kv => kv.1 == k2) := by
  intro st
  induction st with
  | nil =>
    simp only [List.nil_append]
    rw [List.find?_cons_of_neg _ (by simp [Ne.symm hne])]
  | cons a st ih =>
    simp only [List.cons_append]
    by_cases hpa : a.1 = k2
    · rw [List.find?_cons_of_pos _ (by simp [hpa]),
        List.find?_cons_of_pos _ (by simp [hpa])]
    · rw [List.find?_cons_of_neg _ (by simp [hpa]),
        List.find?_cons_of_neg _ (by simp [hpa])]
      exact ih

/-- Writing one file does not affect reads of other files. -/
theorem fsGet_fsSet_ne {α : Type} (st : List (String × α)) (k k2 : String) (v : α)
    (hne : k2 ≠ k) : fsGet (fsSet st k v) k2 = fsGet st k2 := by
  unfold fsGet fsSet
  split
  · rw [find?_map_upsert_other k k2 v hne st]
  · rw [find?_append_other k k2 v hne st]

/-- A chunk-write pass over fresh, pairwise-distinct positions grows the
chunk directory by exactly the number of chunks written. -/
theorem writeChunks_fold_length (docId : String) (md : Meta) :
    ∀ (ps : List (Nat × Text)) (chunks : List (String × ChunkRec)),
      (ps.map Prod.fst).Nodup →
      (∀ p ∈ ps, fsGet chunks (chunkKey docId p.1) = none) →
      (ps.foldl
        (fun acc ic =>
          fsSet acc (chunkKey docId ic.1)
            ⟨chunkKey docId ic.1, docId, ic.2, ic.1, md⟩)
        chunks).length = chunks.length + ps.length := by
  intro ps
  induction ps with
  | nil => intro chunks _ _; rfl
  | cons p ps ih =>
    intro chunks hnd hfresh
    rw [List.foldl_cons]
    simp only [List.map_cons, List.nodup_cons] at hnd
    have hstep := fsSet_length_fresh chunks (chunkKey docId p.1)
      ⟨chunkKey docId p.1, docId, p.2, p.1, md⟩ (hfresh p (List.mem_cons_self _ _))
    have hrest : ∀ q ∈ ps,
        fsGet (fsSet chunks (chunkKey docId p.1)
          ⟨chunkKey docId p.1, docId, p.2, p.1, md⟩) (chunkKey docId q.1) = none := by
      intro q hq
      have hne : chunkKey docId q.1 ≠ chunkKey docId p.1 := by
        intro he
        have := chunkKey_injective docId q.1 p.1 he
        exact hnd.1 (this ▸ List.mem_map_of_mem Prod.fst hq)
      rw [fsGet_fsSet_ne _ _ _ _ hne]
      exact hfresh q (List.mem_cons_of_mem _ hq)
    rw [ih _ hnd.2 hrest, hstep]
    simp only [List.length_cons]
    omega

/-- Keys that are no chunk key of the written document read unchanged
through a chunk-write pass. -/
theorem writeChunks_fold_get_other (docId : String) (md : Meta) :
    ∀ (ps : List (Nat × Text)) (chunks : List (String × ChunkRec)) (k : String),
      (∀ a : Nat, k ≠ chunkKey docId a) →
      fsGet (ps.foldl
        (fun acc ic =>
          fsSet acc (chunkKey docId ic.1)
            ⟨chunkKey docId ic.1, docId, ic.2, ic.1, md⟩)
        chunks) k = fsGet chunks k := by
  intro ps
  induction ps with
  | nil => intro chunks k _; rfl
  | cons p ps ih =>
    intro chunks k hk
    rw [List.foldl_cons, ih _ _ hk, fsGet_fsSet_ne _ _ _ _ (hk p.1)]

/-- `writeChunks` version of `writeChunks_fold_length`: the position list
of the chunker output is `range`, hence `Nodup`. -/
theorem writeChunks_length (chunks : List (String × ChunkRec)) (docId : String)
    (md : Meta) (chs : List Text)
    (hfresh : ∀ a : Nat, fsGet chunks (chunkKey docId a) = none) :
    (writeChunks chunks docId md chs).length = chunks.length + chs.length := by
  unfold writeChunks
  rw [writeChunks_fold_length docId md chs.enum chunks ?_ ?_]
  · rw [List.enum_length]
  · rw [List.enum_map_fst]
    exact List.nodup_range _
  · intro p _
    exact hfresh p.1

/-- `writeChunks` version of `writeChunks_fold_get_other`. -/
theorem writeChunks_get_other (chunks : List (String × ChunkRec)) (docId : String)
    (md : Meta) (chs : List Text) (k : String) (hk : ∀ a : Nat, k ≠ chunkKey docId a) :
    fsGet (writeChunks chunks docId md chs) k = fsGet chunks k :=
  writeChunks_fold_get_other docId md chs.enum chunks k hk

end CountingLemmas

/-- Pairwise compatibility of two batch entries: their documents resolve
to the same id (the second add then fails and writes nothing), or no chunk
file name of the one is a chunk file name of the other. -/
def BatchCompatible (uf : Nat → String) (x y : Nat × InputDoc) : Prop :=
  resolveId uf x.1 x.2 = resolveId uf y.1 y.2 ∨
    ∀ a b : Nat, chunkKey (resolveId uf x.1 x.2) a ≠ chunkKey (resolveId uf y.1 y.2) b

/-- Initial cleanliness of one batch entry: its document either exists
already (the add fails), or the store holds no chunk file under any of its
chunk keys. -/
def EntryClean (uf : Nat → String) (st : IndexState) (p : Nat × InputDoc) : Prop :=
  fsGet st.docs (resolveId uf p.1 p.2) ≠ none ∨
    ∀ a : Nat, fsGet st.chunks (chunkKey (resolveId uf p.1 p.2) a) = none

/-- Loop invariant for the chunk counter: with `update_if_exists = false`,
each processed document either fails (no writes) or writes exactly its
chunk count of fresh chunk files. -/
theorem addDocsLoop_counter (cs co now : Nat) (uf : Nat → String) :
    ∀ (docs : List InputDoc) (i0 : Nat) (stc : IndexState) (res0 : List AddResult)
      (tc0 tch0 : Nat) (st1 : IndexState) (res1 : List AddResult) (tc1 tch1 : Nat),
      addDocsLoop false cs co now uf docs i0 stc res0 tc0 tch0
        = some (st1, res1, tc1, tch1) →
      List.Pairwise (BatchCompatible uf) (docs.enumFrom i0) →
      (∀ p ∈ docs.enumFrom i0, EntryClean uf stc p) →
      st1.chunks.length + tc0 = stc.chunks.length + tc1 := by
  intro docs
  induction docs with
  | nil =>
    intro i0 stc res0 tc0 tch0 st1 res1 tc1 tch1 hrun _ _
    unfold addDocsLoop at hrun
    simp only [Option.some_inj, Prod.mk.injEq] at hrun
    obtain ⟨h1, _, h3, _⟩ := hrun
    rw [← h1, ← h3]
  | cons d docs ih =>
    intro i0 stc res0 tc0 tch0 st1 res1 tc1 tch1 hrun hpair hclean
    rw [List.enumFrom_cons] at hpair hclean
    have hpairTail := (List.pairwise_cons.1 hpair).2
    have hpairHead := (List.pairwise_cons.1 hpair).1
    unfold addDocsLoop at hrun
    dsimp only at hrun
    rcases hget : fsGet stc.docs (resolveId uf i0 d) with _ | existing
    · -- fresh document: it is written together with its chunks
      rw [hget] at hrun
      simp only [Option.isSome_none, Bool.false_eq_true, false_and, if_false] at hrun
      rcases hch : chunkText d.content cs co with _ | chs
      · rw [hch] at hrun; cases hrun
      · rw [hch] at hrun
        dsimp only at hrun
        have hfreshChunks : ∀ a : Nat,
            fsGet stc.chunks (chunkKey (resolveId uf i0 d) a) = none := by
          rcases hclean ((i0, d)) (List.mem_cons_self _ _) with h | h
          · exact absurd hget h
          · exact h
        have hlen := writeChunks_length stc.chunks (resolveId uf i0 d) d.metadata chs
          hfreshChunks
        have hcleanTail : ∀ p ∈ docs.enumFrom (i0 + 1),
            EntryClean uf
              { stc with
                docs := fsSet stc.docs (resolveId uf i0 d)
                  ⟨resolveId uf i0 d, d.content, d.metadata, chs.length, now, now⟩,
                chunks := writeChunks stc.chunks (resolveId uf i0 d) d.metadata chs }
              p := by
          intro p hp
          have hcp := hclean p (List.mem_cons_of_mem _ hp)
          have hcompat := hpairHead p hp
          by_cases heq : resolveId uf p.1 p.2 = resolveId uf i0 d
          · left
            rw [heq]
            simp only
            rw [fsGet_fsSet_self]
            exact fun hcon => by cases hcon
          · rcases hcp with h | h
            · left
              simp only
              rw [fsGet_fsSet_ne _ _ _ _ heq]
              exact h
            · right
              intro a
              simp only
              rcases hcompat with hsame | hdisj
              · exact absurd hsame.symm heq
              · rw [writeChunks_get_other _ _ _ _ _ (fun b hcol => hdisj b a hcol.symm)]
                exact h a
        have := ih (i0 + 1) _ _ _ _ _ _ _ _ hrun hpairTail hcleanTail
        simp only at this
        rw [hlen] at this
        omega
    · -- existing document: the add fails and writes nothing
      rw [hget] at hrun
      simp only [Option.isSome_some, not_false_eq_true, and_self, if_true] at hrun
      have hcleanTail : ∀ p ∈ docs.enumFrom (i0 + 1), EntryClean uf stc p :=
        fun p hp => hclean p (List.mem_cons_of_mem _ hp)
      exact ih (i0 + 1) _ _ _ _ _ _ _ _ hrun hpairTail hcleanTail

/-- C2 (amended).  After a completed `AddDocuments` batch with
`update_if_exists = false`, on a store whose chunk counter matched the
number of chunk files, on batch entries that pairwise do not collide in
chunk file names and whose fresh documents have no stale chunk files, the
counter again equals the number of chunk files on disk.  The other write
paths do not maintain the counter: `UpdateDocument` with new content and
`DeleteDocument` leave `metadata.json` untouched (see the counterexample),
so the invariant as claimed fails for them. -/
theorem chunk_counter_matches_disk_after_fresh_add
    (st : IndexState) (docs : List InputDoc) (csA coA : Option Nat)
    (uf : Nat → String) (now : Nat) (st2 : IndexState) (res : List AddResult)
    (m : IndexMeta)
    (hmeta : st.meta = some m)
    (hpre : m.chunk_count = st.chunks.length)
    (hpair : List.Pairwise (BatchCompatible uf) docs.enum)
    (hclean : ∀ p ∈ docs.enum, EntryClean uf st p)
    (hrun : addDocuments st docs csA coA false uf now = some (st2, res)) :
    chunkCounter st2 = some st2.chunks.length := by
  unfold addDocuments at hrun
  dsimp only at hrun
  rcases hloop : addDocsLoop false (orDefault csA (stateSettings st).1)
      (orDefault coA (stateSettings st).2) now uf docs 0
      { st with chunksDir := true } [] 0 0 with _ | out
  · rw [hloop] at hrun; cases hrun
  · rw [hloop] at hrun
    obtain ⟨st1, res1, tc1, tch1⟩ := out
    dsimp only at hrun
    have hcount := addDocsLoop_counter (orDefault csA (stateSettings st).1)
      (orDefault coA (stateSettings st).2) now uf docs 0
      { st with chunksDir := true } [] 0 0 st1 res1 tc1 tch1 hloop
      (by simpa [List.enum] using hpair)
      (by
        intro p hp
        have := hclean p (by simpa [List.enum] using hp)
        rcases this with h | h
        · exact Or.inl h
        · exact Or.inr h)
    have hmeta1 : st1.meta = st.meta := by
      clear hrun
      -- the loop never modifies `metadata.json`
      have : ∀ (ds : List InputDoc) (i0 : Nat) (stc : IndexState) (r0 : List AddResult)
          (a b : Nat) (s1 : IndexState) (r1 : List AddResult) (c d2 : Nat),
          addDocsLoop false (orDefault csA (stateSettings st).1)
            (orDefault coA (stateSettings st).2) now uf ds i0 stc r0 a b
            = some (s1, r1, c, d2) → s1.meta = stc.meta := by
        intro ds
        induction ds with
        | nil =>
          intro i0 stc r0 a b s1 r1 c d2 hr
          unfold addDocsLoop at hr
          simp only [Option.some_inj, Prod.mk.injEq] at hr
          rw [← hr.1]
        | cons e es ih =>
          intro i0 stc r0 a b s1 r1 c d2 hr
          unfold addDocsLoop at hr
          dsimp only at hr
          split at hr
          · exact ih _ _ _ _ _ _ _ _ _ hr
          · rcases hch : chunkText e.content (orDefault csA (stateSettings st).1)
                (orDefault coA (stateSettings st).2) with _ | chs
            · rw [hch] at hr; cases hr
            · rw [hch] at hr
              dsimp only at hr
              have h5 := ih _ _ _ _ _ _ _ _ _ hr
              exact h5.trans rfl
      have h6 := this docs 0 _ [] 0 0 st1 res1 tc1 tch1 hloop
      exact h6.trans rfl
    rw [hmeta1, hmeta] at hrun
    dsimp only at hrun
    simp only [Option.some_inj, Prod.mk.injEq] at hrun
    obtain ⟨hst2, _⟩ := hrun
    rw [← hst2]
    unfold chunkCounter
    simp only [Option.map_some]
    have : st1.chunks.length = st.chunks.length + tc1 := by
      simpa using hcount
    rw [this, hpre]
    rfl

/-- C2 (counterexample).  After `AddDocuments [docD1]` (counter 2, 2 chunk
files) and then `DeleteDocument d`, no chunk file remains but the counter
in `metadata.json` still reads 2: the delete path never updates the
counter. -/
theorem delete_document_counter_c2_counterexample :
    chunkCounter stateDel = some 2 ∧ stateDel.chunks.length = 0 ∧
      chunkCounter stateDel ≠ some stateDel.chunks.length := by
  refine ⟨by decide, by decide, by decide⟩

/-- C2 (witness): the amended theorem applied to the one-document batch
`[docD1]` on the fresh index `state0`. -/
theorem chunk_counter_matches_disk_witness :
    ∃ st2 res, addDocuments state0 [docD1] none none false noUuid 1 = some (st2, res) ∧
      chunkCounter st2 = some st2.chunks.length := by
  refine ⟨_, _, rfl, ?_⟩
  refine chunk_counter_matches_disk_after_fresh_add state0 [docD1] none none noUuid 1
    _ _ _ rfl rfl ?_ ?_ rfl
  · exact List.pairwise_singleton _ _
  · intro p hp
    right
    intro a
    rfl

section FilenameOrder

/-- The code-point comparison is irreflexive. -/
theorem listLtB_irrefl : ∀ l : List Char, listLtB l l = false := by
  intro l
  induction l with
  | nil => rfl
  | cons a l ih =>
    simp only [listLtB, lt_irrefl, if_false, ih]

/-- The code-point comparison is asymmetric. -/
theorem listLtB_asymm : ∀ a b : List Char,
    listLtB a b = true → listLtB b a = true → False := by
  intro a
  induction a with
  | nil =>
    intro b h1 h2
    cases b with
    | nil => cases h1
    | cons x bs => cases h2
  | cons x as ih =>
    intro b h1 h2
    cases b with
    | nil => cases h1
    | cons y bs =>
      simp only [listLtB] at h1 h2
      by_cases hxy : x < y
      · rw [if_neg (lt_asymm hxy), if_pos hxy] at h2
        cases h2
      · rw [if_neg hxy] at h1
        by_cases hyx : y < x
        · rw [if_pos hyx] at h1
          cases h1
        · rw [if_neg hyx, if_neg hxy] at h2
          rw [if_neg hyx] at h1
          exact ih bs h1 h2

/-- The code-point comparison is transitive. -/
theorem listLtB_trans : ∀ a b c : List Char,
    listLtB a b = true → listLtB b c = true → listLtB a c = true := by
  intro a
  induction a with
  | nil =>
    intro b c h1 h2
    cases b with
    | nil => cases h1
    | cons y bs =>
      cases c with
      | nil => cases h2
      | cons z cs => rfl
  | cons x as ih =>
    intro b c h1 h2
    cases b with
    | nil => cases h1
    | cons y bs =>
      cases c with
      | nil => cases h2
      | cons z cs =>
        simp only [listLtB] at h1 h2 ⊢
        by_cases hxy : x < y
        · by_cases hyz : y < z
          · rw [if_pos (lt_trans hxy hyz)]
          · rw [if_neg hyz] at h2
            by_cases hzy : z < y
            · rw [if_pos hzy] at h2
              cases h2
            · have hyz2 : y = z := le_antisymm (not_lt.1 hzy) (not_lt.1 hyz)
              rw [if_pos (hyz2 ▸ hxy)]
        · rw [if_neg hxy] at h1
          by_cases hyx : y < x
          · rw [if_pos hyx] at h1
            cases h1
          · have hxy2 : x = y := le_antisymm (not_lt.1 hyx) (not_lt.1 hxy)
            subst hxy2
            rw [if_neg hyx] at h1
            by_cases hxz : x < z
            · rw [if_pos hxz]
            · rw [if_neg hxz] at h2 ⊢
              by_cases hzx : z < x
              · rw [if_pos hzx] at h2
                cases h2
              · rw [if_neg hzx] at h2 ⊢
                exact ih bs cs h1 h2

/-- Failure of the comparison means greater or equal. -/
theorem listLtB_false : ∀ a b : List Char,
    listLtB a b = false → listLtB b a = true ∨ a = b := by
  intro a
  induction a with
  | nil =>
    intro b h
    cases b with
    | nil => exact Or.inr rfl
    | cons y bs => cases h
  | cons x as ih =>
    intro b h
    cases b with
    | nil => exact Or.inl rfl
    | cons y bs =>
      simp only [listLtB] at h ⊢
      by_cases hxy : x < y
      · rw [if_pos hxy] at h
        cases h
      · rw [if_neg hxy] at h
        by_cases hyx : y < x
        · exact Or.inl (by rw [if_pos hyx])
        · have hxy2 : x = y := le_antisymm (not_lt.1 hyx) (not_lt.1 hxy)
          subst hxy2
          rw [if_neg hyx] at h ⊢
          rw [if_neg hyx]
          rcases ih bs h with h2 | h2
          · exact Or.inl h2
          · exact Or.inr (by rw [h2])

/-- The file-name order is transitive. -/
theorem fileLe_trans {α : Type} (a b c : String × α) (hab : fileLe a b)
    (hbc : fileLe b c) : fileLe a c := by
  simp only [fileLe, Bool.not_eq_true'] at *
  unfold strLtB at *
  rcases hca : listLtB ((c.1 ++ ".json").data) ((a.1 ++ ".json").data) with _ | _
  · rfl
  · exfalso
    rcases listLtB_false _ _ hab with h1 | h1 <;>
      rcases listLtB_false _ _ hbc with h2 | h2
    · have := listLtB_trans _ _ _ (listLtB_trans _ _ _ h1 h2) hca
      rw [listLtB_irrefl] at this
      cases this
    · rw [h2] at hca
      exact listLtB_asymm _ _ h1 hca
    · rw [h1] at h2
      have := listLtB_trans _ _ _ h2 hca
      rw [listLtB_irrefl] at this
      cases this
    · rw [h2, h1, listLtB_irrefl] at hca
      cases hca

/-- The file-name order is total. -/
theorem fileLe_total {α : Type} (a b : String × α) : fileLe a b || fileLe b a := by
  simp only [fileLe, Bool.not_eq_true', Bool.or_eq_true]
  rcases h1 : strLtB (b.1 ++ ".json") (a.1 ++ ".json") with _ | _
  · exact Or.inl rfl
  · right
    rcases h2 : strLtB (a.1 ++ ".json") (b.1 ++ ".json") with _ | _
    · rfl
    · exact absurd (listLtB_asymm _ _ h1 h2) not_false

/-- The sorted file list is pairwise ordered by file name. -/
theorem sortedByFilename_pairwise {α : Type} (l : List (String × α)) :
    (sortedByFilename l).Pairwise (fun a b => fileLe a b = true) :=
  List.sorted_mergeSort (fun a b c => fileLe_trans a b c) (fun a b => fileLe_total a b) l

/-- Sorting permutes, so membership is unchanged. -/
theorem sortedByFilename_mem {α : Type} (l : List (String × α)) (x : String × α) :
    x ∈ sortedByFilename l ↔ x ∈ l :=
  List.mem_mergeSort

/-- Single-digit naturals print as their digit character. -/
theorem repr_data_lt_ten : ∀ n < 10, (Nat.repr n).data = [Nat.digitChar n] := by decide

/-- The digit characters are strictly increasing below 10. -/
theorem digitChar_mono : ∀ a < 10, ∀ b < 10,
    a < b → Nat.digitChar a < Nat.digitChar b := by decide

/-- Lexicographic comparison ignores a common prefix. -/
theorem listLtB_append_left (u v w : List Char) :
    listLtB (u ++ v) (u ++ w) = listLtB v w := by
  induction u with
  | nil => rfl
  | cons x u ih =>
    simp only [List.cons_append, listLtB, lt_irrefl, if_false]
    exact ih

/-- Chunk file names with a common document compare by digit for
single-digit positions. -/
theorem chunkKey_json_lt (d : String) (i j : Nat) (hi : i < 10) (hj : j < 10)
    (hij : i < j) : strLtB (chunkKey d i ++ ".json") (chunkKey d j ++ ".json") = true := by
  unfold strLtB chunkKey
  rw [string_data_append, string_data_append, string_data_append,
    string_data_append, string_data_append, string_data_append,
    repr_data_lt_ten i hi, repr_data_lt_ten j hj,
    List.append_assoc, List.append_assoc, List.append_assoc, List.append_assoc,
    listLtB_append_left]
  have : listLtB ([Nat.digitChar i] ++ ".json".data) ([Nat.digitChar j] ++ ".json".data)
      = true := by
    simp only [List.singleton_append, listLtB, if_pos (digitChar_mono i hi j hj hij)]
  simpa using this

end FilenameOrder

/-- C4 (amended).  `get_document` returns the chunks sorted by file name
(lexicographically); this coincides with ascending numeric `position`
whenever every chunk of the document has a single-digit position — in
particular for documents with at most 10 chunks.  With 11 or more chunks
the lexicographic order interleaves (`…_10.json` sorts between `…_1.json`
and `…_2.json`, see the counterexample). -/
theorem get_document_sorted_of_single_digit (st : IndexState) (docId : String)
    (detail : DocumentDetail)
    (hwf : ∀ kv ∈ st.chunks, strPre (chunkPre docId) kv.1 = true →
      kv.1 = chunkKey docId kv.2.position ∧ kv.2.position < 10)
    (hget : getDocument st docId = some detail) :
    List.Pairwise (fun a b => a ≤ b)
      (detail.chunks.map (fun c => c.position)) := by
  unfold getDocument at hget
  rcases hd : fsGet st.docs docId with _ | doc
  · rw [hd] at hget; cases hget
  · rw [hd] at hget
    dsimp only at hget
    simp only [Option.some_inj] at hget
    rcases hdir : st.chunksDir with _ | _
    · rw [hdir] at hget
      rw [← hget]
      simp
    · rw [hdir] at hget
      rw [← hget]
      simp only [if_pos rfl]
      rw [List.map_map, List.pairwise_map]
      have hs := sortedByFilename_pairwise
        (st.chunks.filter (fun kv => strPre (chunkPre docId) kv.1))
      refine List.Pairwise.imp_of_mem ?_ hs
      intro a b ha hb hle
      have hina := (sortedByFilename_mem _ a).1 ha
      have hinb := (sortedByFilename_mem _ b).1 hb
      have hfa := List.mem_filter.1 hina
      have hfb := List.mem_filter.1 hinb
      have hwa := hwf a hfa.1 (by simpa using hfa.2)
      have hwb := hwf b hfb.1 (by simpa using hfb.2)
      simp only [Function.comp]
      by_contra hcon
      push_neg at hcon
      have hlt := chunkKey_json_lt docId b.2.position a.2.position hwb.2 hwa.2 hcon
      rw [← hwa.1, ← hwb.1] at hlt
      simp only [fileLe, Bool.not_eq_true'] at hle
      rw [hle] at hlt
      cases hlt

set_option maxRecDepth 40000 in
unseal List.merge List.mergeSort in
/-- C4 (counterexample).  On a document with 11 chunks, `get_document`
returns positions in the order `0, 1, 10, 2, …, 9` — file-name order, not
ascending numeric order. -/
theorem get_document_c4_counterexample :
    ((getDocument stateLong "d").map (fun d2 => d2.chunks.map (fun c => c.position)))
      = some [0, 1, 10, 2, 3, 4, 5, 6, 7, 8, 9] ∧
    ¬ List.Pairwise (fun a b => a ≤ b) [0, 1, 10, 2, 3, 4, 5, 6, 7, 8, 9] := by
  exact ⟨by decide, by decide⟩

/-- C4 (witness): the amended theorem applied to a stored document with
two chunks. -/
theorem get_document_sorted_witness :
    ∃ detail, getDocument stateAdd1 "d" = some detail ∧
      List.Pairwise (fun a b => a ≤ b)
        (detail.chunks.map (fun c => c.position)) := by
  refine ⟨_, rfl, ?_⟩
  exact get_document_sorted_of_single_digit stateAdd1 "d" _ (by decide) rfl

/-- A provenance established over the tail of a ranking also holds over
the whole ranking. -/
theorem annProvenance_cons (chunkMap : String → Option ChunkRec)
    (mapping : List String) (filters : Option Filters) (minScore : ℚ)
    (incC incM : Bool) (p : Int × ℚ) (rest : List (Int × ℚ)) (r : SearchResult)
    (h : AnnProvenance chunkMap mapping filters minScore incC incM rest r) :
    AnnProvenance chunkMap mapping filters minScore incC incM (p :: rest) r := by
  refine ⟨h.1, ?_, h.2.2⟩
  obtain ⟨i2, hi2⟩ := h.2.1
  exact ⟨i2, List.mem_cons_of_mem _ hi2.1, hi2.2⟩

/-- Soundness of the ANN result loop: at most `top_k` results are
collected and every collected result is traceable through the OrdinalMap
with its score, chunk and filter checks. -/
theorem annLoop_sound (chunkMap : String → Option ChunkRec) (mapping : List String)
    (filters : Option Filters) (minScore : ℚ) (incC incM : Bool) (topK : Nat) :
    ∀ (l : List (Int × ℚ)) (acc rs : List SearchResult),
      annLoop chunkMap mapping filters minScore incC incM topK l acc = .ok rs →
      acc.length < topK →
      rs.length ≤ topK ∧
        ∀ r ∈ rs, r ∈ acc ∨
          AnnProvenance chunkMap mapping filters minScore incC incM l r := by
  intro l
  induction l with
  | nil =>
    intro acc rs h hlen
    simp only [annLoop, Except.ok.injEq] at h
    subst h
    exact ⟨le_of_lt hlen, fun r hr => Or.inl hr⟩
  | cons p rest ih =>
    intro acc rs h hlen
    obtain ⟨idx, score⟩ := p
    rw [annLoop] at h
    by_cases hsc : score < minScore
    · rw [if_pos hsc] at h
      rcases ih acc rs h hlen with ⟨h1, h2⟩
      refine ⟨h1, fun r hr => ?_⟩
      rcases h2 r hr with h3 | h3
      · exact Or.inl h3
      · exact Or.inr (annProvenance_cons _ _ _ _ _ _ _ _ _ h3)
    · rw [if_neg hsc] at h
      by_cases hrange : 0 ≤ idx ∧ idx < (mapping.length : Int)
      · rw [if_pos hrange] at h
        dsimp only at h
        rcases hch : chunkMap (mapping.getD idx.toNat "") with _ | ch
        · rw [hch] at h
          rcases ih acc rs h hlen with ⟨h1, h2⟩
          refine ⟨h1, fun r hr => ?_⟩
          rcases h2 r hr with h3 | h3
          · exact Or.inl h3
          · exact Or.inr (annProvenance_cons _ _ _ _ _ _ _ _ _ h3)
        · rw [hch] at h
          dsimp only at h
          have hkeep : ∃ keepRes,
              (match filters with
                | some fs =>
                  if fs.isEmpty then Except.ok true else matchesFilter ch.metadata fs
                | none => (Except.ok true : Except String Bool)) = keepRes ∧
              (keepRes = Except.ok true →
                ∀ fs, filters = some fs → fs.isEmpty = false →
                  matchesFilter ch.metadata fs = Except.ok true) := by
            rcases filters with _ | fs
            · exact ⟨Except.ok true, rfl, fun _ fs hfs => by cases hfs⟩
            · rcases hemp : fs.isEmpty with _ | _
              · refine ⟨matchesFilter ch.metadata fs, by dsimp only; rw [hemp]; simp, ?_⟩
                intro hko fs2 hfs2 _
                cases hfs2
                exact hko
              · refine ⟨Except.ok true, by dsimp only; rw [hemp]; simp, ?_⟩
                intro _ fs2 hfs2 he
                cases hfs2
                rw [hemp] at he
                cases he
          obtain ⟨keepRes, hkr, hfilt⟩ := hkeep
          rw [hkr] at h
          rcases keepRes with e | b
          · dsimp only at h
            cases h
          · rcases b with _ | _
            · dsimp only at h
              rcases ih acc rs h hlen with ⟨h1, h2⟩
              refine ⟨h1, fun r hr => ?_⟩
              rcases h2 r hr with h3 | h3
              · exact Or.inl h3
              · exact Or.inr (annProvenance_cons _ _ _ _ _ _ _ _ _ h3)
            · dsimp only at h
              have hnew : AnnProvenance chunkMap mapping filters minScore incC incM
                  ((idx, score) :: rest)
                  (mkSearchResult ch (mapping.getD idx.toNat "") score incC incM) := by
                refine ⟨not_lt.mp hsc, ⟨idx, List.mem_cons_self _ _, hrange.1,
                  hrange.2, rfl⟩, ch, hch, rfl, ?_⟩
                exact hfilt rfl
              by_cases hfull :
                  topK ≤ (acc ++ [mkSearchResult ch (mapping.getD idx.toNat "") score incC incM]).length
              · rw [if_pos hfull] at h
                cases h
                constructor
                · rw [List.length_append, List.length_singleton]
                  omega
                · intro r hr
                  rcases List.mem_append.mp hr with h4 | h4
                  · exact Or.inl h4
                  · rcases List.mem_singleton.mp h4 with rfl
                    exact Or.inr hnew
              · rw [if_neg hfull] at h
                have hlen2 :
                    (acc ++ [mkSearchResult ch (mapping.getD idx.toNat "") score incC incM]).length < topK := by
                  omega
                rcases ih _ rs h hlen2 with ⟨h1, h2⟩
                refine ⟨h1, fun r hr => ?_⟩
                rcases h2 r hr with h3 | h3
                · rcases List.mem_append.mp h3 with h4 | h4
                  · exact Or.inl h4
                  · rcases List.mem_singleton.mp h4 with rfl
                    exact Or.inr hnew
                · exact Or.inr (annProvenance_cons _ _ _ _ _ _ _ _ _ h3)
      · rw [if_neg hrange] at h
        rcases ih acc rs h hlen with ⟨h1, h2⟩
        refine ⟨h1, fun r hr => ?_⟩
        rcases h2 r hr with h3 | h3
        · exact Or.inl h3
        · exact Or.inr (annProvenance_cons _ _ _ _ _ _ _ _ _ h3)

/-- `search` takes the ANN path whenever a searcher is present, the
OrdinalMap is non-empty and the result loop returns a non-empty list. -/
theorem searchFull_ann (env : SearchEnv) (topK : Nat) (filters : Option Filters)
    (minScore : ℚ) (incC incM : Bool) (annF : Nat → List (Int × ℚ))
    (rs : List SearchResult)
    (hs : env.searcher = some annF)
    (hm : env.chunkMapping.isEmpty = false)
    (hrun : annLoop (chunkMapOf env.chunkStore) env.chunkMapping filters minScore
      incC incM topK (annF (if filtersTruthy filters then topK * 2 else topK)) [] =
      .ok rs)
    (hne : rs ≠ []) :
    searchFull env topK filters minScore incC incM = .ann rs := by
  unfold searchFull
  rw [hs]
  dsimp only
  rw [hm]
  rw [if_neg (by simp)]
  rw [hrun]
  dsimp only
  rcases rs with _ | ⟨r, rl⟩
  · exact absurd rfl hne
  · rfl

/-- C5 (amended): when an ANN searcher is available, the OrdinalMap is
non-empty and the ANN result loop over the `top_k * 2` (filter present)
or `top_k` (otherwise) requested pairs succeeds with a NON-EMPTY result
list, `search` returns exactly those results without invoking the
brute-force fallback: at most `top_k` of them, each traceable to a ranked
`(ordinal, score)` pair with kept score, in-range ordinal mapped through
the OrdinalMap, loaded chunk and passed filter.  (When the loop succeeds
with an empty list the fallback IS invoked, refuting the original claim's
"its search call succeeds" premise alone.) -/
theorem search_ann_path (env : SearchEnv) (topK : Nat) (filters : Option Filters)
    (minScore : ℚ) (incC incM : Bool) (annF : Nat → List (Int × ℚ))
    (rs : List SearchResult)
    (hs : env.searcher = some annF)
    (hm : env.chunkMapping.isEmpty = false)
    (hrun : annLoop (chunkMapOf env.chunkStore) env.chunkMapping filters minScore
      incC incM topK (annF (if filtersTruthy filters then topK * 2 else topK)) [] =
      .ok rs)
    (hne : rs ≠ [])
    (htk : 1 ≤ topK) :
    searchFull env topK filters minScore incC incM = .ann rs ∧
      rs.length ≤ topK ∧
      ∀ r ∈ rs, AnnProvenance (chunkMapOf env.chunkStore) env.chunkMapping filters
        minScore incC incM (annF (if filtersTruthy filters then topK * 2 else topK)) r := by
  obtain ⟨h1, h2⟩ :=
    annLoop_sound (chunkMapOf env.chunkStore) env.chunkMapping filters minScore
      incC incM topK _ [] rs hrun (by simpa using htk)
  refine ⟨searchFull_ann env topK filters minScore incC incM annF rs hs hm hrun hne,
    h1, fun r hr => ?_⟩
  rcases h2 r hr with h3 | h3
  · cases h3
  · exact h3

/-- C5, counterexample to the original claim: in `envTwo` with
`min_score = 1` the ANN searcher is available and its result loop
succeeds (returning the empty list, the lone hit's score 1/2 being below
`min_score`), yet `search` invokes the brute-force fallback. -/
theorem search_c5_counterexample :
    envTwo.searcher.isSome = true ∧
    envTwo.chunkMapping.isEmpty = false ∧
    (∃ annF, envTwo.searcher = some annF ∧
      annLoop (chunkMapOf envTwo.chunkStore) envTwo.chunkMapping none 1 true true 1
        (annF 1) [] = Except.ok []) ∧
    searchFull envTwo 1 none 1 true true = .fallback := by
  refine ⟨rfl, rfl, ⟨_, rfl, ?_⟩, ?_⟩ <;> with_unfolding_all rfl

unseal List.merge List.mergeSort in
theorem search_ann_path_witness :
    searchFull envTwo 1 none 0 true true = .ann [resSem0] ∧
      ([resSem0] : List SearchResult).length ≤ 1 :=
  ⟨(search_ann_path envTwo 1 none 0 true true
      (fun k => ([((0 : Int), (1 : ℚ)/2)]).take k) [resSem0] rfl rfl
      (by with_unfolding_all decide)
      (List.cons_ne_nil _ _) (by omega)).1,
   by decide⟩

/-- An id absent from the list has no rank. -/
theorem rankOf_eq_none (cid : String) :
    ∀ l : List String, cid ∉ l → rankOf cid l = none := by
  intro l
  induction l with
  | nil => intro _; rfl
  | cons x rest ih =>
    intro h
    rw [rankOf, if_neg (fun he => h (by rw [← he]; exact List.mem_cons_self _ _)),
      ih (fun hm => h (List.mem_cons_of_mem _ hm))]
    rfl

/-- Rank of the first occurrence after a prefix that avoids the id. -/
theorem rankOf_append_cons (cid : String) :
    ∀ (pre : List String) (post : List String), cid ∉ pre →
      rankOf cid (pre ++ cid :: post) = some pre.length := by
  intro pre
  induction pre with
  | nil =>
    intro post _
    simp [rankOf]
  | cons x rest ih =>
    intro post h
    rw [List.cons_append, rankOf,
      if_neg (fun he => h (by rw [← he]; exact List.mem_cons_self _ _)),
      ih post (fun hm => h (List.mem_cons_of_mem _ hm))]
    rfl

/-- The spec keyword score of an id outside the grep hits is 0. -/
theorem specKwScore_absent (grepRes : List GrepResult) (cid : String)
    (h : ∀ g ∈ grepRes, g.chunk_id ≠ cid) : specKwScore grepRes cid = 0 := by
  unfold specKwScore
  rw [rankOf_eq_none cid _ ?_]
  intro hm
  obtain ⟨g, hg, he⟩ := List.mem_map.mp hm
  exact h g hg he

/-- The spec keyword score of the grep hit ranked `|done|` in a
duplicate-free grep list. -/
theorem specKwScore_rank (done : List GrepResult) (g : GrepResult)
    (rest : List GrepResult)
    (h : g.chunk_id ∉ done.map (fun x => x.chunk_id)) :
    specKwScore (done ++ g :: rest) g.chunk_id =
      (((done ++ g :: rest).length : ℚ) - (done.length : ℚ)) /
        ((done ++ g :: rest).length : ℚ) := by
  unfold specKwScore
  rw [List.map_append, List.map_cons, rankOf_append_cons _ _ _ h]
  simp

/-- In a list with duplicate-free chunk ids, `find?` at a member's id
returns exactly that member. -/
theorem find?_chunkId_of_nodup (l : List SearchResult) (s : SearchResult)
    (hnd : (l.map (fun r => r.chunk_id)).Nodup) (hs : s ∈ l) :
    l.find? (fun r => r.chunk_id == s.chunk_id) = some s := by
  induction l with
  | nil => cases hs
  | cons a rest ih =>
    rw [List.map_cons, List.nodup_cons] at hnd
    rcases List.mem_cons.mp hs with rfl | hs2
    · rw [List.find?_cons_of_pos _ (by simp)]
    · have hne : a.chunk_id ≠ s.chunk_id := by
        intro he
        have hmem : s.chunk_id ∈ rest.map (fun r => r.chunk_id) :=
          List.mem_map.mpr ⟨s, hs2, rfl⟩
        rw [← he] at hmem
        exact hnd.1 hmem
      rw [List.find?_cons_of_neg _ (by simpa using hne)]
      exact ih hnd.2 hs2

/-- The spec semantic score of a member of a duplicate-free semantic hit
list is its raw score. -/
theorem specSemScore_of_mem (semRes : List SearchResult) (s : SearchResult)
    (hnd : (semRes.map (fun r => r.chunk_id)).Nodup) (hs : s ∈ semRes) :
    specSemScore semRes s.chunk_id = s.score := by
  unfold specSemScore
  rw [find?_chunkId_of_nodup semRes s hnd hs]

/-- The spec semantic score of an id outside the semantic hits is 0. -/
theorem specSemScore_absent (semRes : List SearchResult) (cid : String)
    (h : ∀ s ∈ semRes, s.chunk_id ≠ cid) : specSemScore semRes cid = 0 := by
  unfold specSemScore
  rw [List.find?_eq_none.mpr ?_]
  intro r hr
  simpa using h r hr

/-- The semantic insertion loop over pairwise-fresh ids only appends. -/
theorem semFold_loop_eq (rs : List SearchResult) :
    ∀ acc : List HybEntry,
      (∀ r ∈ rs, ∀ e ∈ acc, e.chunk_id ≠ r.chunk_id) →
      (rs.map (fun r => r.chunk_id)).Nodup →
      rs.foldl (fun m r => mapSet m r.chunk_id (semEntry r)) acc =
        acc ++ rs.map semEntry := by
  induction rs with
  | nil => intro acc _ _; simp
  | cons r rest ih =>
    intro acc hdis hnd
    rw [List.map_cons, List.nodup_cons] at hnd
    have hany : acc.any (fun x => x.chunk_id == r.chunk_id) = false := by
      rw [List.any_eq_false]
      intro e he
      simpa using hdis r (List.mem_cons_self _ _) e he
    have hstep : mapSet acc r.chunk_id (semEntry r) = acc ++ [semEntry r] := by
      unfold mapSet
      rw [hany]
      simp
    rw [List.foldl_cons, hstep, ih (acc ++ [semEntry r]) ?_ hnd.2]
    · simp
    · intro r2 hr2 e he
      rcases List.mem_append.mp he with hin | hin
      · exact hdis r2 (List.mem_cons_of_mem _ hr2) e hin
      · rcases List.mem_singleton.mp hin with rfl
        show r.chunk_id ≠ r2.chunk_id
        intro he2
        have hmem : r2.chunk_id ∈ rest.map (fun x => x.chunk_id) :=
          List.mem_map.mpr ⟨r2, hr2, rfl⟩
        rw [← he2] at hmem
        exact hnd.1 hmem

/-- With duplicate-free semantic ids the first phase of `hybrid_search`
is exactly a map. -/
theorem semFold_eq_map (rs : List SearchResult)
    (hnd : (rs.map (fun r => r.chunk_id)).Nodup) :
    semFold rs = rs.map semEntry := by
  unfold semFold
  rw [semFold_loop_eq rs [] (fun r _ e he => absurd he (List.not_mem_nil e)) hnd]
  simp

/-- The keyword update never changes an entry's chunk id. -/
theorem kwUpdate_chunk_id (cid : String) (kw : ℚ) (x : HybEntry) :
    (kwUpdate cid kw x).chunk_id = x.chunk_id := by
  unfold kwUpdate
  split
  · rfl
  · rfl

/-- The keyword update never changes an entry's semantic score. -/
theorem kwUpdate_sem (cid : String) (kw : ℚ) (x : HybEntry) :
    (kwUpdate cid kw x).semantic_score = x.semantic_score := by
  unfold kwUpdate
  split
  · rfl
  · rfl

/-- The keyword update on the matching entry sets the keyword score. -/
theorem kwUpdate_of_eq (cid : String) (kw : ℚ) (x : HybEntry)
    (h : x.chunk_id = cid) : kwUpdate cid kw x = setKw kw x := by
  unfold kwUpdate
  rw [if_pos (by simp [h])]

/-- The keyword update skips non-matching entries. -/
theorem kwUpdate_of_ne (cid : String) (kw : ℚ) (x : HybEntry)
    (h : x.chunk_id ≠ cid) : kwUpdate cid kw x = x := by
  unfold kwUpdate
  rw [if_neg (by simp [h])]

/-- Invariant of the grep pass of `hybrid_search` over a grep list with
duplicate-free chunk ids: every final entry carries the semantic score
described by `σ` and the spec keyword score, and no id is lost. -/
theorem grepFold_loop_spec (grepRes : List GrepResult) (σ : String → ℚ)
    (hgnd : (grepRes.map (fun g => g.chunk_id)).Nodup) :
    ∀ (gs done : List GrepResult) (acc res : List HybEntry),
      grepRes = done ++ gs →
      (acc.map (fun e => e.chunk_id)).Nodup →
      (∀ e ∈ acc, e.semantic_score = σ e.chunk_id) →
      (∀ cid, (∀ e ∈ acc, e.chunk_id ≠ cid) → σ cid = 0) →
      (∀ e ∈ acc, e.chunk_id ∉ gs.map (fun g => g.chunk_id) →
        e.keyword_score = specKwScore grepRes e.chunk_id) →
      res = (List.enumFrom done.length gs).foldl
          (fun acc2 ig => grepFoldStep acc2 ig.2
            (((grepRes.length : ℚ) - (ig.1 : ℚ)) / (grepRes.length : ℚ))) acc →
      (res.map (fun e => e.chunk_id)).Nodup ∧
        (∀ e ∈ res, e.semantic_score = σ e.chunk_id ∧
          e.keyword_score = specKwScore grepRes e.chunk_id) ∧
        (∀ e0 ∈ acc, ∃ e ∈ res, e.chunk_id = e0.chunk_id) ∧
        (∀ g ∈ gs, ∃ e ∈ res, e.chunk_id = g.chunk_id) := by
  intro gs
  induction gs with
  | nil =>
    intro done acc res hgr hnd hsem hcov hkw hres
    subst hres
    exact ⟨hnd, fun e he => ⟨hsem e he, hkw e he (by simp)⟩,
      fun e0 he0 => ⟨e0, he0, rfl⟩, fun g hg => absurd hg (List.not_mem_nil g)⟩
  | cons g rest ih =>
    intro done acc res hgr hnd hsem hcov hkw hres
    rw [show List.enumFrom done.length (g :: rest) =
        (done.length, g) :: List.enumFrom (done.length + 1) rest from rfl,
      List.foldl_cons] at hres
    have hgnd2 := hgnd
    rw [hgr, List.map_append, List.map_cons, List.nodup_append,
      List.nodup_cons] at hgnd2
    have hnidone : g.chunk_id ∉ done.map (fun x => x.chunk_id) :=
      fun hmem => hgnd2.2.2 hmem (List.mem_cons_self _ _)
    have hgrest : g.chunk_id ∉ rest.map (fun x => x.chunk_id) := hgnd2.2.1.1
    have hkwv : specKwScore grepRes g.chunk_id =
        ((grepRes.length : ℚ) - (done.length : ℚ)) / (grepRes.length : ℚ) := by
      rw [hgr]
      exact specKwScore_rank done g rest hnidone
    rcases hex : acc.any (fun x => x.chunk_id == g.chunk_id) with _ | _
    · have hnotin : ∀ e ∈ acc, e.chunk_id ≠ g.chunk_id := by
        rw [List.any_eq_false] at hex
        intro e he
        simpa using hex e he
      have hstep : grepFoldStep acc g
          (((grepRes.length : ℚ) - (done.length : ℚ)) / (grepRes.length : ℚ)) =
          acc ++ [⟨g.document_id, g.chunk_id, some g.content, g.metadata, 0, 0,
            ((grepRes.length : ℚ) - (done.length : ℚ)) / (grepRes.length : ℚ)⟩] := by
        unfold grepFoldStep
        rw [hex]
        simp
      rw [hstep] at hres
      obtain ⟨c1, c2, c3, c4⟩ := ih (done ++ [g])
        (acc ++ [⟨g.document_id, g.chunk_id, some g.content, g.metadata, 0, 0,
          ((grepRes.length : ℚ) - (done.length : ℚ)) / (grepRes.length : ℚ)⟩]) res
        (by rw [hgr]; simp)
        (by
          rw [List.map_append]
          refine List.Nodup.append hnd ?_ ?_
          · simp
          · intro a ha hb
            simp only [List.map_cons, List.map_nil, List.mem_singleton] at hb
            obtain ⟨e, he, hea⟩ := List.mem_map.mp ha
            exact hnotin e he (hea.trans hb))
        (by
          intro e he
          rcases List.mem_append.mp he with hin | hin
          · exact hsem e hin
          · rcases List.mem_singleton.mp hin with rfl
            exact (hcov g.chunk_id hnotin).symm)
        (by
          intro cid hall
          exact hcov cid (fun e he => hall e (List.mem_append_left _ he)))
        (by
          intro e he hni
          rcases List.mem_append.mp he with hin | hin
          · refine hkw e hin ?_
            rw [List.map_cons]
            intro hmem
            rcases List.mem_cons.mp hmem with heq | hmem2
            · exact hnotin e hin heq
            · exact hni hmem2
          · rcases List.mem_singleton.mp hin with rfl
            exact hkwv.symm)
        (by
          rw [List.length_append, List.length_singleton]
          exact hres)
      refine ⟨c1, c2, ?_, ?_⟩
      · intro e0 he0
        exact c3 e0 (List.mem_append_left _ he0)
      · intro g2 hg2
        rcases List.mem_cons.mp hg2 with rfl | hg3
        · obtain ⟨e, he, hid⟩ := c3 _ (List.mem_append_right _ (List.mem_singleton_self _))
          exact ⟨e, he, hid⟩
        · exact c4 g2 hg3
    · have hstep : grepFoldStep acc g
          (((grepRes.length : ℚ) - (done.length : ℚ)) / (grepRes.length : ℚ)) =
          acc.map (kwUpdate g.chunk_id
            (((grepRes.length : ℚ) - (done.length : ℚ)) / (grepRes.length : ℚ))) := by
        unfold grepFoldStep
        rw [hex]
        simp
      rw [hstep] at hres
      have hids : (acc.map (kwUpdate g.chunk_id
          (((grepRes.length : ℚ) - (done.length : ℚ)) / (grepRes.length : ℚ)))).map
            (fun e => e.chunk_id) = acc.map (fun e => e.chunk_id) := by
        rw [List.map_map]
        exact List.map_congr_left (fun x _ => kwUpdate_chunk_id _ _ x)
      obtain ⟨c1, c2, c3, c4⟩ := ih (done ++ [g])
        (acc.map (kwUpdate g.chunk_id
          (((grepRes.length : ℚ) - (done.length : ℚ)) / (grepRes.length : ℚ)))) res
        (by rw [hgr]; simp)
        (by rw [hids]; exact hnd)
        (by
          intro e he
          obtain ⟨x, hx, rfl⟩ := List.mem_map.mp he
          rw [kwUpdate_sem, kwUpdate_chunk_id]
          exact hsem x hx)
        (by
          intro cid hall
          refine hcov cid (fun e he => ?_)
          have hne := hall _ (List.mem_map_of_mem _ he)
          rwa [kwUpdate_chunk_id] at hne)
        (by
          intro e he hni
          obtain ⟨x, hx, rfl⟩ := List.mem_map.mp he
          by_cases hxg : x.chunk_id = g.chunk_id
          · rw [kwUpdate_of_eq _ _ _ hxg] at hni ⊢
            show ((grepRes.length : ℚ) - (done.length : ℚ)) / (grepRes.length : ℚ) =
              specKwScore grepRes x.chunk_id
            rw [hxg, hkwv]
          · rw [kwUpdate_of_ne _ _ _ hxg] at hni ⊢
            refine hkw x hx ?_
            rw [List.map_cons]
            intro hmem
            rcases List.mem_cons.mp hmem with heq | hmem2
            · exact hxg heq
            · exact hni hmem2)
        (by
          rw [List.length_append, List.length_singleton]
          exact hres)
      refine ⟨c1, c2, ?_, ?_⟩
      · intro e0 he0
        obtain ⟨e, he, hid2⟩ := c3 _ (List.mem_map_of_mem _ he0)
        rw [kwUpdate_chunk_id] at hid2
        exact ⟨e, he, hid2⟩
      · intro g2 hg2
        rcases List.mem_cons.mp hg2 with rfl | hg3
        · rw [List.any_eq_true] at hex
          obtain ⟨x, hx, hbeq⟩ := hex
          have hxeq : x.chunk_id = g2.chunk_id := by simpa using hbeq
          obtain ⟨e, he, hid2⟩ := c3 _ (List.mem_map_of_mem _ hx)
          rw [kwUpdate_chunk_id, hxeq] at hid2
          exact ⟨e, he, hid2⟩
        · exact c4 g2 hg3

/-- The chunk ids of the inserted semantic entries. -/
theorem semEntry_map_ids (semRes : List SearchResult) :
    (semRes.map semEntry).map (fun e => e.chunk_id) =
      semRes.map (fun r => r.chunk_id) := by
  rw [List.map_map]
  exact List.map_congr_left (fun r _ => rfl)

/-- The `score_map` union of `hybrid_search` over duplicate-free hit
lists: ids stay duplicate-free, every entry carries its spec semantic and
keyword scores, and every semantic and grep hit contributes an entry. -/
theorem hybUnion_spec (semRes : List SearchResult) (grepRes : List GrepResult)
    (hs : (semRes.map (fun r => r.chunk_id)).Nodup)
    (hg : (grepRes.map (fun g => g.chunk_id)).Nodup) :
    ((hybUnion semRes grepRes).map (fun e => e.chunk_id)).Nodup ∧
    (∀ e ∈ hybUnion semRes grepRes,
        e.semantic_score = specSemScore semRes e.chunk_id ∧
        e.keyword_score = specKwScore grepRes e.chunk_id) ∧
    (∀ s ∈ semRes, ∃ e ∈ hybUnion semRes grepRes, e.chunk_id = s.chunk_id) ∧
    (∀ g ∈ grepRes, ∃ e ∈ hybUnion semRes grepRes, e.chunk_id = g.chunk_id) := by
  have hfold : hybUnion semRes grepRes =
      (List.enumFrom 0 grepRes).foldl
        (fun acc2 ig => grepFoldStep acc2 ig.2
          (((grepRes.length : ℚ) - (ig.1 : ℚ)) / (grepRes.length : ℚ)))
        (semRes.map semEntry) := by
    rw [← semFold_eq_map semRes hs]
    unfold hybUnion grepFold
    rcases grepRes with _ | ⟨g0, gr⟩
    · rfl
    · rfl
  obtain ⟨c1, c2, c3, c4⟩ :=
    grepFold_loop_spec grepRes (specSemScore semRes) hg grepRes []
      (semRes.map semEntry) (hybUnion semRes grepRes)
      (by simp)
      (by rw [semEntry_map_ids]; exact hs)
      (by
        intro e he
        obtain ⟨s, hsm, rfl⟩ := List.mem_map.mp he
        show s.score = specSemScore semRes (semEntry s).chunk_id
        rw [show (semEntry s).chunk_id = s.chunk_id from rfl,
          specSemScore_of_mem semRes s hs hsm])
      (by
        intro cid hall
        refine specSemScore_absent semRes cid (fun s hsm => ?_)
        have := hall (semEntry s) (List.mem_map_of_mem _ hsm)
        exact this)
      (by
        intro e he hni
        obtain ⟨s, hsm, rfl⟩ := List.mem_map.mp he
        show (0 : ℚ) = specKwScore grepRes (semEntry s).chunk_id
        refine (specKwScore_absent grepRes _ (fun g hgm he2 => ?_)).symm
        exact hni (he2 ▸ List.mem_map_of_mem _ hgm))
      hfold
  refine ⟨c1, c2, ?_, c4⟩
  intro s hsm
  obtain ⟨e, he, hid⟩ := c3 (semEntry s) (List.mem_map_of_mem _ hsm)
  exact ⟨e, he, hid⟩

/-- C7: for a hybrid search whose semantic run (`top_k * 3` requested) is
`semRes` and whose grep run returns `grs`, both with duplicate-free chunk
ids: the output is exactly the fusion of the two runs, every `score_map`
entry carries semantic score equal to its raw semantic score (0 when
absent from the semantic hits) and keyword score `(N - i) / N` for the
grep hit ranked `i` of `N` (0 when absent); every output result's score
is `sem * semantic_weight + kw * keyword_weight`, and the output is a
permutation of the union sorted by combined score descending, truncated
to `top_k`. -/
theorem hybrid_search_scores (env : SearchEnv) (q : Text) (topK : Nat)
    (wS wK : ℚ) (filters : Option Filters)
    (semRes : List SearchResult) (grs : List GrepResult)
    (hsem : semRes = searchResults env (topK * 3) filters 0 true true)
    (hgrep : grepSearch env.chunkStore q (topK * 3) filters = .ok grs)
    (hs : (semRes.map (fun r => r.chunk_id)).Nodup)
    (hg : (grs.map (fun g => g.chunk_id)).Nodup) :
    hybridSearch env q topK wS wK filters =
      .ok (hybridCombine semRes grs wS wK topK) ∧
    (∀ e ∈ hybUnion semRes grs,
        e.semantic_score = specSemScore semRes e.chunk_id ∧
        e.keyword_score = specKwScore grs e.chunk_id) ∧
    (∀ s ∈ semRes, ∃ e ∈ hybUnion semRes grs, e.chunk_id = s.chunk_id) ∧
    (∀ g ∈ grs, ∃ e ∈ hybUnion semRes grs, e.chunk_id = g.chunk_id) ∧
    (∀ r ∈ hybridCombine semRes grs wS wK topK,
        r.score = specSemScore semRes r.chunk_id * wS +
          specKwScore grs r.chunk_id * wK) ∧
    ∃ v : List HybEntry, v.Perm (hybUnion semRes grs) ∧
      v.Pairwise (fun a b => combined wS wK b ≤ combined wS wK a) ∧
      hybridCombine semRes grs wS wK topK =
        (v.take topK).map (hybEntryToResult wS wK) := by
  obtain ⟨u1, u2, u3, u4⟩ := hybUnion_spec semRes grs hs hg
  refine ⟨?_, u2, u3, u4, ?_, ?_⟩
  · unfold hybridSearch
    dsimp only
    rw [hgrep, hsem]
    rfl
  · intro r hr
    unfold hybridCombine at hr
    obtain ⟨e, he, rfl⟩ := List.mem_map.mp hr
    have heu : e ∈ hybUnion semRes grs :=
      List.mem_mergeSort.mp (List.take_subset _ _ he)
    obtain ⟨hsc, hkc⟩ := u2 e heu
    show combined wS wK e = _
    unfold combined
    rw [hsc, hkc]
    rfl
  · refine ⟨(hybUnion semRes grs).mergeSort
      (fun a b => decide (combined wS wK b ≤ combined wS wK a)),
      List.mergeSort_perm _ _, ?_, rfl⟩
    have hsorted := @List.sorted_mergeSort HybEntry
      (fun a b => decide (combined wS wK b ≤ combined wS wK a))
      (fun a b c hab hbc => by
        rw [decide_eq_true_eq] at hab hbc ⊢
        exact le_trans hbc hab)
      (fun a b => by
        rcases le_total (combined wS wK b) (combined wS wK a) with h | h
        · rw [Bool.or_eq_true]
          exact Or.inl (decide_eq_true h)
        · rw [Bool.or_eq_true]
          exact Or.inr (decide_eq_true h))
      (hybUnion semRes grs)
    exact hsorted.imp (fun h => by rwa [decide_eq_true_eq] at h)

unseal List.merge List.mergeSort in
theorem hybrid_search_scores_witness :
    hybridSearch envTwo "x".toList 2 1 1 none =
      .ok (hybridCombine [resSem0] grsW 1 1 2) :=
  (hybrid_search_scores envTwo "x".toList 2 1 1 none [resSem0] grsW
    (by with_unfolding_all decide) (by with_unfolding_all decide)
    (by decide) (by decide)).1

/-- Erasing the keyword score commutes with the keyword update. -/
theorem stripKw_kwUpdate (cid : String) (kw : ℚ) (x : HybEntry) :
    stripKw (kwUpdate cid kw x) = stripKw x := by
  unfold kwUpdate
  split
  · rfl
  · rfl

/-- Shape of the grep pass: the existing entries change only in their
keyword score and stay in place; every appended entry has semantic score
0, position 0 and an id foreign to the starting map. -/
theorem grepFold_loop_shape (grepRes : List GrepResult) :
    ∀ (gs : List GrepResult) (k : Nat) (acc res : List HybEntry),
      res = (List.enumFrom k gs).foldl
          (fun acc2 ig => grepFoldStep acc2 ig.2
            (((grepRes.length : ℚ) - (ig.1 : ℚ)) / (grepRes.length : ℚ))) acc →
      ∃ upd app : List HybEntry,
        res = upd ++ app ∧
        upd.map stripKw = acc.map stripKw ∧
        ∀ e ∈ app, e.semantic_score = 0 ∧ e.position = 0 ∧
          ∀ e0 ∈ acc, e.chunk_id ≠ e0.chunk_id := by
  intro gs
  induction gs with
  | nil =>
    intro k acc res hres
    refine ⟨acc, [], ?_, rfl, fun e he => absurd he (List.not_mem_nil e)⟩
    rw [List.append_nil]
    exact hres
  | cons g rest ih =>
    intro k acc res hres
    rw [show List.enumFrom k (g :: rest) =
        (k, g) :: List.enumFrom (k + 1) rest from rfl, List.foldl_cons] at hres
    rcases hex : acc.any (fun x => x.chunk_id == g.chunk_id) with _ | _
    · have hnotin : ∀ e ∈ acc, e.chunk_id ≠ g.chunk_id := by
        rw [List.any_eq_false] at hex
        intro e he
        simpa using hex e he
      have hstep : grepFoldStep acc g
          (((grepRes.length : ℚ) - (k : ℚ)) / (grepRes.length : ℚ)) =
          acc ++ [⟨g.document_id, g.chunk_id, some g.content, g.metadata, 0, 0,
            ((grepRes.length : ℚ) - (k : ℚ)) / (grepRes.length : ℚ)⟩] := by
        unfold grepFoldStep
        rw [hex]
        simp
      rw [hstep] at hres
      obtain ⟨upd2, app2, hsplit, hmap, happ⟩ := ih (k + 1) _ res hres
      rw [List.map_append] at hmap
      obtain ⟨u1, u2, hu, hm1, hm2⟩ := List.map_eq_append_iff.mp hmap
      rcases u2 with _ | ⟨lastE, tail⟩
      · cases hm2
      · rw [List.map_cons] at hm2
        obtain ⟨hlast, htail⟩ := List.cons_eq_cons.mp hm2
        have htail2 : tail = [] := List.map_eq_nil_iff.mp htail
        subst htail2
        refine ⟨u1, lastE :: app2, ?_, hm1, ?_⟩
        · rw [hsplit, hu]
          simp
        · intro e he
          rcases List.mem_cons.mp he with rfl | he2
          · have hsem : e.semantic_score = 0 := by
              have := congrArg (fun x => x.semantic_score) hlast
              simpa [stripKw] using this
            have hpos : e.position = 0 := by
              have := congrArg (fun x => x.position) hlast
              simpa [stripKw] using this
            have hid : e.chunk_id = g.chunk_id := by
              have := congrArg (fun x => x.chunk_id) hlast
              simpa [stripKw] using this
            refine ⟨hsem, hpos, fun e0 he0 => ?_⟩
            rw [hid]
            exact fun hc => hnotin e0 he0 hc.symm
          · obtain ⟨hsem, hpos, hfor⟩ := happ e he2
            exact ⟨hsem, hpos, fun e0 he0 =>
              hfor e0 (List.mem_append_left _ he0)⟩
    · have hstep : grepFoldStep acc g
          (((grepRes.length : ℚ) - (k : ℚ)) / (grepRes.length : ℚ)) =
          acc.map (kwUpdate g.chunk_id
            (((grepRes.length : ℚ) - (k : ℚ)) / (grepRes.length : ℚ))) := by
        unfold grepFoldStep
        rw [hex]
        simp
      rw [hstep] at hres
      obtain ⟨upd2, app2, hsplit, hmap, happ⟩ := ih (k + 1) _ res hres
      have hmap2 : upd2.map stripKw = acc.map stripKw := by
        rw [hmap, List.map_map]
        exact List.map_congr_left (fun x _ => stripKw_kwUpdate _ _ x)
      refine ⟨upd2, app2, hsplit, hmap2, ?_⟩
      intro e he
      obtain ⟨hsem, hpos, hfor⟩ := happ e he
      refine ⟨hsem, hpos, fun e0 he0 => ?_⟩
      have := hfor _ (List.mem_map_of_mem (kwUpdate g.chunk_id
        (((grepRes.length : ℚ) - (k : ℚ)) / (grepRes.length : ℚ))) he0)
      rwa [kwUpdate_chunk_id] at this

/-- The grep pass over the semantic map, shaped: wrapper of the shape
lemma at the top level of `hybrid_search`. -/
theorem hybUnion_shape (semRes : List SearchResult) (grepRes : List GrepResult) :
    ∃ upd app : List HybEntry,
      hybUnion semRes grepRes = upd ++ app ∧
      upd.map stripKw = (semFold semRes).map stripKw ∧
      ∀ e ∈ app, e.semantic_score = 0 ∧ e.position = 0 ∧
        ∀ e0 ∈ semFold semRes, e.chunk_id ≠ e0.chunk_id := by
  refine grepFold_loop_shape grepRes grepRes 0 (semFold semRes)
    (hybUnion semRes grepRes) ?_
  unfold hybUnion grepFold
  rcases grepRes with _ | ⟨g0, gr⟩
  · rfl
  · rfl

/-- C10: in every hybrid search output (with duplicate-free semantic hit
ids), a result whose chunk appears in none of the semantic hits
(grep-only) is reported with position 0 regardless of the chunk's stored
position, while a result whose chunk is a semantic hit carries that hit's
position. -/
theorem hybrid_grep_only_position_zero (env : SearchEnv) (q : Text)
    (topK : Nat) (wS wK : ℚ) (filters : Option Filters)
    (out : List SearchResult)
    (hout : hybridSearch env q topK wS wK filters = .ok out)
    (hnd : ((searchResults env (topK * 3) filters 0 true true).map
      (fun r => r.chunk_id)).Nodup) :
    ∀ r ∈ out,
      ((∀ s ∈ searchResults env (topK * 3) filters 0 true true,
          s.chunk_id ≠ r.chunk_id) → r.position = 0) ∧
      (∀ s ∈ searchResults env (topK * 3) filters 0 true true,
        s.chunk_id = r.chunk_id → r.position = s.position) := by
  unfold hybridSearch at hout
  dsimp only at hout
  rcases hgr : grepSearch env.chunkStore q (topK * 3) filters with e | grs
  · rw [hgr] at hout
    simp [Bind.bind, Except.bind] at hout
  · rw [hgr] at hout
    simp only [Bind.bind, Except.bind, Except.ok.injEq] at hout
    subst hout
    intro r hr
    unfold hybridCombine at hr
    obtain ⟨en, hen, rfl⟩ := List.mem_map.mp hr
    have heu : en ∈ hybUnion (searchResults env (topK * 3) filters 0 true true) grs :=
      List.mem_mergeSort.mp (List.take_subset _ _ hen)
    obtain ⟨upd, app, hsplit, hmap, happ⟩ :=
      hybUnion_shape (searchResults env (topK * 3) filters 0 true true) grs
    rw [semFold_eq_map _ hnd] at hmap happ
    rw [hsplit] at heu
    rcases List.mem_append.mp heu with hu | ha
    · have hmem : stripKw en ∈
          ((searchResults env (topK * 3) filters 0 true true).map semEntry).map stripKw := by
        rw [← hmap]
        exact List.mem_map_of_mem stripKw hu
      obtain ⟨x, hx, hxe⟩ := List.mem_map.mp hmem
      obtain ⟨s, hsm, rfl⟩ := List.mem_map.mp hx
      have hcid : en.chunk_id = s.chunk_id := by
        have := congrArg (fun y => y.chunk_id) hxe
        simpa [stripKw, semEntry] using this.symm
      have hpos : en.position = s.position := by
        have := congrArg (fun y => y.position) hxe
        simpa [stripKw, semEntry] using this.symm
      constructor
      · intro hno
        exact absurd hcid.symm (hno s hsm)
      · intro s2 hs2 heq
        have heq2 : s2.chunk_id = en.chunk_id := heq
        have hs2s : s2 = s :=
          List.inj_on_of_nodup_map hnd hs2 hsm (heq2.trans hcid)
        show en.position = s2.position
        rw [hpos, hs2s]
    · obtain ⟨hsem0, hpos0, hfor⟩ := happ en ha
      constructor
      · intro _
        exact hpos0
      · intro s2 hs2 heq
        have := hfor (semEntry s2) (List.mem_map_of_mem _ hs2)
        exact absurd heq.symm this

/-- The ANN result loop only ever appends to its accumulator. -/
theorem annLoop_acc_prefix (cm : String → Option ChunkRec) (mp : List String)
    (fl : Option Filters) (ms : ℚ) (ic im : Bool) (k : Nat) :
    ∀ (l : List (Int × ℚ)) (acc rs : List SearchResult),
      annLoop cm mp fl ms ic im k l acc = .ok rs → acc <+: rs := by
  intro l
  induction l with
  | nil =>
    intro acc rs h
    simp only [annLoop, Except.ok.injEq] at h
    subst h
    exact List.prefix_refl _
  | cons p rest ih =>
    intro acc rs h
    obtain ⟨idx, score⟩ := p
    rw [annLoop] at h
    by_cases hsc : score < ms
    · rw [if_pos hsc] at h
      exact ih acc rs h
    · rw [if_neg hsc] at h
      by_cases hrange : 0 ≤ idx ∧ idx < (mp.length : Int)
      · rw [if_pos hrange] at h
        dsimp only at h
        rcases hch : cm (mp.getD idx.toNat "") with _ | ch
        · rw [hch] at h
          exact ih acc rs h
        · rw [hch] at h
          dsimp only at h
          rcases hkr : (match fl with
            | some fs =>
              if fs.isEmpty then Except.ok true else matchesFilter ch.metadata fs
            | none => (Except.ok true : Except String Bool)) with e | b
          · rw [hkr] at h
            dsimp only at h
            cases h
          · rw [hkr] at h
            rcases b with _ | _
            · dsimp only at h
              exact ih acc rs h
            · dsimp only at h
              by_cases hfull : k ≤
                  (acc ++ [mkSearchResult ch (mp.getD idx.toNat "") score ic im]).length
              · rw [if_pos hfull] at h
                cases h
                exact List.prefix_append acc _
              · rw [if_neg hfull] at h
                exact (List.prefix_append acc _).trans (ih _ rs h)
      · rw [if_neg hrange] at h
        exact ih acc rs h

/-- Two runs of the ANN result loop over the same ranking prefix, the
second with a longer ranking and a larger cap, produce results related by
the prefix order. -/
theorem annLoop_mono (cm : String → Option ChunkRec) (mp : List String)
    (fl : Option Filters) (ms : ℚ) (ic im : Bool) :
    ∀ (l ext : List (Int × ℚ)) (acc : List SearchResult) (k k2 : Nat)
      (rs rs2 : List SearchResult),
      k ≤ k2 →
      annLoop cm mp fl ms ic im k l acc = .ok rs →
      annLoop cm mp fl ms ic im k2 (l ++ ext) acc = .ok rs2 →
      rs <+: rs2 := by
  intro l
  induction l with
  | nil =>
    intro ext acc k k2 rs rs2 hk h h2
    simp only [annLoop, Except.ok.injEq] at h
    subst h
    exact annLoop_acc_prefix cm mp fl ms ic im k2 ext acc rs2 (by simpa using h2)
  | cons p rest ih =>
    intro ext acc k k2 rs rs2 hk h h2
    obtain ⟨idx, score⟩ := p
    rw [annLoop] at h
    rw [List.cons_append, annLoop] at h2
    by_cases hsc : score < ms
    · rw [if_pos hsc] at h h2
      exact ih ext acc k k2 rs rs2 hk h h2
    · rw [if_neg hsc] at h h2
      by_cases hrange : 0 ≤ idx ∧ idx < (mp.length : Int)
      · rw [if_pos hrange] at h h2
        dsimp only at h h2
        rcases hch : cm (mp.getD idx.toNat "") with _ | ch
        · rw [hch] at h h2
          exact ih ext acc k k2 rs rs2 hk h h2
        · rw [hch] at h h2
          dsimp only at h h2
          rcases hkr : (match fl with
            | some fs =>
              if fs.isEmpty then Except.ok true else matchesFilter ch.metadata fs
            | none => (Except.ok true : Except String Bool)) with e | b
          · rw [hkr] at h
            dsimp only at h
            cases h
          · rw [hkr] at h h2
            rcases b with _ | _
            · dsimp only at h h2
              exact ih ext acc k k2 rs rs2 hk h h2
            · dsimp only at h h2
              by_cases hfull : k ≤
                  (acc ++ [mkSearchResult ch (mp.getD idx.toNat "") score ic im]).length
              · rw [if_pos hfull] at h
                cases h
                by_cases hfull2 : k2 ≤
                    (acc ++ [mkSearchResult ch (mp.getD idx.toNat "") score ic im]).length
                · rw [if_pos hfull2] at h2
                  cases h2
                  exact List.prefix_refl _
                · rw [if_neg hfull2] at h2
                  exact annLoop_acc_prefix cm mp fl ms ic im k2 _ _ rs2 h2
              · rw [if_neg hfull] at h
                rw [if_neg (fun hh => hfull (le_trans hk hh))] at h2
                exact ih ext _ k k2 rs rs2 hk h h2
      · rw [if_neg hrange] at h h2
        exact ih ext acc k k2 rs rs2 hk h h2

/-- The scores of the ANN loop's results follow the ranking's scores in
order (as a sublist, after the accumulator's scores). -/
theorem annLoop_scores_sublist (cm : String → Option ChunkRec) (mp : List String)
    (fl : Option Filters) (ms : ℚ) (ic im : Bool) (k : Nat) :
    ∀ (l : List (Int × ℚ)) (acc rs : List SearchResult),
      annLoop cm mp fl ms ic im k l acc = .ok rs →
      (rs.map (fun r => r.score)).Sublist
        (acc.map (fun r => r.score) ++ l.map (fun p => p.2)) := by
  intro l
  induction l with
  | nil =>
    intro acc rs h
    simp only [annLoop, Except.ok.injEq] at h
    subst h
    simp
  | cons p rest ih =>
    intro acc rs h
    obtain ⟨idx, score⟩ := p
    rw [annLoop] at h
    have hcons : (((idx, score) :: rest).map (fun p => p.2)) =
        score :: rest.map (fun p => p.2) := rfl
    rw [hcons]
    have hext : (acc.map (fun r => r.score) ++ rest.map (fun p => p.2)).Sublist
        (acc.map (fun r => r.score) ++ score :: rest.map (fun p => p.2)) :=
      List.Sublist.append_left (List.sublist_cons_self _ _) _
    by_cases hsc : score < ms
    · rw [if_pos hsc] at h
      exact (ih acc rs h).trans hext
    · rw [if_neg hsc] at h
      by_cases hrange : 0 ≤ idx ∧ idx < (mp.length : Int)
      · rw [if_pos hrange] at h
        dsimp only at h
        rcases hch : cm (mp.getD idx.toNat "") with _ | ch
        · rw [hch] at h
          exact (ih acc rs h).trans hext
        · rw [hch] at h
          dsimp only at h
          rcases hkr : (match fl with
            | some fs =>
              if fs.isEmpty then Except.ok true else matchesFilter ch.metadata fs
            | none => (Except.ok true : Except String Bool)) with e | b
          · rw [hkr] at h
            dsimp only at h
            cases h
          · rw [hkr] at h
            rcases b with _ | _
            · dsimp only at h
              exact (ih acc rs h).trans hext
            · dsimp only at h
              by_cases hfull : k ≤
                  (acc ++ [mkSearchResult ch (mp.getD idx.toNat "") score ic im]).length
              · rw [if_pos hfull] at h
                cases h
                rw [List.map_append]
                exact List.Sublist.append_left
                  (List.cons_sublist_cons.mpr (List.nil_sublist _)) _
              · rw [if_neg hfull] at h
                have := ih _ rs h
                rw [List.map_append] at this
                simpa using this
      · rw [if_neg hrange] at h
        exact (ih acc rs h).trans hext

/-- C8 (amended): with keyword_weight 0 and a nonnegative semantic
weight, on an index whose ANN searcher returns a rank-ordered
(score-descending) stream, when the standalone semantic search fills its
full `top_k` quota and the hybrid pipeline's larger semantic and grep
runs succeed (with duplicate-free semantic ids), the hybrid top-k chunk
ids EQUAL the semantic top-k chunk ids (hence are a permutation of
them).  Without the full-quota premise the sets can differ: the hybrid
semantic run requests `top_k * 3` results and grep-only chunks fill
remaining slots, so the original unconditional claim is false. -/
theorem hybrid_kw_zero_permutation
    (env : SearchEnv) (q : Text) (topK : Nat) (wS : ℚ)
    (filters : Option Filters)
    (annF : Nat → List (Int × ℚ)) (stream : List (Int × ℚ))
    (rs rs3 : List SearchResult) (grs : List GrepResult)
    (hs : env.searcher = some annF)
    (hannF : ∀ k, annF k = stream.take k)
    (hm : env.chunkMapping.isEmpty = false)
    (hdesc : (stream.map (fun p => p.2)).Pairwise (fun a b => b ≤ a))
    (hws : 0 ≤ wS)
    (htk : 1 ≤ topK)
    (h1 : annLoop (chunkMapOf env.chunkStore) env.chunkMapping filters 0 true true
      topK (annF (if filtersTruthy filters then topK * 2 else topK)) [] = .ok rs)
    (hlen : rs.length = topK)
    (h3 : annLoop (chunkMapOf env.chunkStore) env.chunkMapping filters 0 true true
      (topK * 3) (annF (if filtersTruthy filters then topK * 3 * 2 else topK * 3)) [] =
      .ok rs3)
    (hnd : (rs3.map (fun r => r.chunk_id)).Nodup)
    (hgrep : grepSearch env.chunkStore q (topK * 3) filters = .ok grs) :
    searchResults env topK filters 0 true true = rs ∧
    hybridSearch env q topK wS 0 filters =
      .ok (hybridCombine rs3 grs wS 0 topK) ∧
    (hybridCombine rs3 grs wS 0 topK).map (fun r => r.chunk_id) =
      (searchResults env topK filters 0 true true).map (fun r => r.chunk_id) ∧
    ((hybridCombine rs3 grs wS 0 topK).map (fun r => r.chunk_id)).Perm
      ((searchResults env topK filters 0 true true).map (fun r => r.chunk_id)) := by
  have hle : (if filtersTruthy filters then topK * 2 else topK) ≤
      (if filtersTruthy filters then topK * 3 * 2 else topK * 3) := by
    rcases filtersTruthy filters with _ | _
    · simpa using by omega
    · simpa using by omega
  have hpre : rs <+: rs3 := by
    have h1s := h1
    have h3s := h3
    rw [hannF] at h1s h3s
    have htt : stream.take (if filtersTruthy filters then topK * 2 else topK) =
        (stream.take (if filtersTruthy filters then topK * 3 * 2 else topK * 3)).take
          (if filtersTruthy filters then topK * 2 else topK) := by
      rw [List.take_take, min_eq_left hle]
    obtain ⟨ext, hext⟩ := List.take_prefix
      (if filtersTruthy filters then topK * 2 else topK)
      (stream.take (if filtersTruthy filters then topK * 3 * 2 else topK * 3))
    rw [← htt] at hext
    rw [← hext] at h3s
    exact annLoop_mono (chunkMapOf env.chunkStore) env.chunkMapping filters 0
      true true _ ext [] topK (topK * 3) rs rs3 (by omega) h1s h3s
  have hr1ne : rs ≠ [] := by
    intro hnil
    rw [hnil] at hlen
    simp at hlen
    omega
  have hr3ne : rs3 ≠ [] := by
    intro hnil
    have := List.IsPrefix.length_le hpre
    rw [hnil, hlen] at this
    simp at this
    omega
  have hsr1 : searchResults env topK filters 0 true true = rs := by
    unfold searchResults
    rw [searchFull_ann env topK filters 0 true true annF rs hs hm h1 hr1ne]
  have hsr3 : searchResults env (topK * 3) filters 0 true true = rs3 := by
    unfold searchResults
    rw [searchFull_ann env (topK * 3) filters 0 true true annF rs3 hs hm h3 hr3ne]
  have hhyb : hybridSearch env q topK wS 0 filters =
      .ok (hybridCombine rs3 grs wS 0 topK) := by
    unfold hybridSearch
    dsimp only
    rw [hgrep, hsr3]
    rfl
  obtain ⟨upd, app, hsplit, hmap, happ⟩ := hybUnion_shape rs3 grs
  rw [semFold_eq_map rs3 hnd] at hmap happ
  have hlupd : upd.length = rs3.length := by
    have hl := congrArg List.length hmap
    simpa using hl
  have hlen3 : topK ≤ rs3.length := by
    have hl := List.IsPrefix.length_le hpre
    omega
  have hidmap : upd.map (fun e => e.chunk_id) = rs3.map (fun r => r.chunk_id) := by
    have h := congrArg (List.map (fun e => e.chunk_id)) hmap
    rw [List.map_map, List.map_map, List.map_map] at h
    have ha : upd.map (fun e => e.chunk_id) =
        upd.map ((fun e : HybEntry => e.chunk_id) ∘ stripKw) :=
      List.map_congr_left (fun a _ => rfl)
    have hb : rs3.map (((fun e : HybEntry => e.chunk_id) ∘ stripKw) ∘ semEntry) =
        rs3.map (fun r => r.chunk_id) :=
      List.map_congr_left (fun a _ => rfl)
    exact ha.trans (h.trans hb)
  have hsemmap : upd.map (fun e => e.semantic_score) = rs3.map (fun r => r.score) := by
    have h := congrArg (List.map (fun e => e.semantic_score)) hmap
    rw [List.map_map, List.map_map, List.map_map] at h
    have ha : upd.map (fun e => e.semantic_score) =
        upd.map ((fun e : HybEntry => e.semantic_score) ∘ stripKw) :=
      List.map_congr_left (fun a _ => rfl)
    have hb : rs3.map (((fun e : HybEntry => e.semantic_score) ∘ stripKw) ∘ semEntry) =
        rs3.map (fun r => r.score) :=
      List.map_congr_left (fun a _ => rfl)
    exact ha.trans (h.trans hb)
  have hcomb_upd : upd.map (combined wS 0) = rs3.map (fun r => r.score * wS) := by
    have h1c : upd.map (combined wS 0) = upd.map (fun e => e.semantic_score * wS) :=
      List.map_congr_left (fun a _ => by unfold combined; ring)
    have h2c : upd.map (fun e => e.semantic_score * wS) =
        (upd.map (fun e => e.semantic_score)).map (fun x => x * wS) := by
      rw [List.map_map]
      exact List.map_congr_left (fun a _ => rfl)
    have h3c : (rs3.map (fun r => r.score)).map (fun x => x * wS) =
        rs3.map (fun r => r.score * wS) := by
      rw [List.map_map]
      exact List.map_congr_left (fun a _ => rfl)
    rw [h1c, h2c, hsemmap, h3c]
  have hscores3 : (rs3.map (fun r => r.score)).Pairwise (fun a b => b ≤ a) := by
    have hsub := annLoop_scores_sublist (chunkMapOf env.chunkStore)
      env.chunkMapping filters 0 true true (topK * 3) _ [] rs3 h3
    rw [hannF] at hsub
    simp only [List.map_nil, List.nil_append] at hsub
    have hsub2 : ((stream.take
        (if filtersTruthy filters then topK * 3 * 2 else topK * 3)).map
          (fun p => p.2)).Sublist (stream.map (fun p => p.2)) := by
      rw [List.map_take]
      exact List.take_sublist _ _
    exact List.Pairwise.sublist (hsub.trans hsub2) hdesc
  have hnonneg : ∀ r ∈ rs3, 0 ≤ r.score := by
    intro r hr
    obtain ⟨h0, h2⟩ := annLoop_sound (chunkMapOf env.chunkStore) env.chunkMapping
      filters 0 true true (topK * 3) _ [] rs3 h3 (by simp; omega)
    rcases h2 r hr with hin | hprov
    · cases hin
    · exact hprov.1
  have hpw_upd : upd.Pairwise
      (fun a b => combined wS 0 b ≤ combined wS 0 a) := by
    have hp : (upd.map (combined wS 0)).Pairwise (fun a b => b ≤ a) := by
      rw [hcomb_upd, List.pairwise_map]
      have hq := List.pairwise_map.mp hscores3
      exact hq.imp (fun hab => mul_le_mul_of_nonneg_right hab hws)
    rw [List.pairwise_map] at hp
    exact hp
  have happ0 : ∀ e ∈ app, combined wS 0 e = 0 := by
    intro e he
    obtain ⟨h0, _, _⟩ := happ e he
    unfold combined
    rw [h0]
    ring
  have hupd_nonneg : ∀ e ∈ upd, 0 ≤ combined wS 0 e := by
    intro e he
    have hmem : combined wS 0 e ∈ upd.map (combined wS 0) :=
      List.mem_map_of_mem _ he
    rw [hcomb_upd] at hmem
    obtain ⟨r, hr, heq⟩ := List.mem_map.mp hmem
    rw [← heq]
    exact mul_nonneg (hnonneg r hr) hws
  have hpw_u : (upd ++ app).Pairwise
      (fun a b => combined wS 0 b ≤ combined wS 0 a) := by
    rw [List.pairwise_append]
    refine ⟨hpw_upd, ?_, ?_⟩
    · refine List.pairwise_of_forall_mem_list ?_
      intro a ha b hb
      rw [happ0 b hb, happ0 a ha]
    · intro a ha b hb
      rw [happ0 b hb]
      exact hupd_nonneg a ha
  have hms : ((upd ++ app).mergeSort
      (fun a b => decide (combined wS 0 b ≤ combined wS 0 a))) = upd ++ app :=
    List.mergeSort_of_sorted (hpw_u.imp (fun h => decide_eq_true h))
  have hout : hybridCombine rs3 grs wS 0 topK =
      (upd.take topK).map (hybEntryToResult wS 0) := by
    unfold hybridCombine
    dsimp only
    rw [show hybUnion rs3 grs = upd ++ app from hsplit, hms,
      List.take_append_of_le_length (by rw [hlupd]; exact hlen3)]
  have htake : rs3.take topK = rs := by
    have hq := List.prefix_iff_eq_take.mp hpre
    rw [hlen] at hq
    exact hq.symm
  have hids_out : (hybridCombine rs3 grs wS 0 topK).map (fun r => r.chunk_id) =
      rs.map (fun r => r.chunk_id) := by
    rw [hout, List.map_map]
    have h1c : (upd.take topK).map
        ((fun r : SearchResult => r.chunk_id) ∘ hybEntryToResult wS 0) =
        (upd.take topK).map (fun e => e.chunk_id) :=
      List.map_congr_left (fun a _ => rfl)
    rw [h1c, List.map_take, hidmap, ← List.map_take, htake]
  refine ⟨hsr1, hhyb, ?_, ?_⟩
  · rw [hids_out, hsr1]
  · rw [hids_out, hsr1]

/-- C8, counterexample to the original claim: in `envTwo` with
`top_k = 2` and `keyword_weight = 0` the hybrid output contains the
grep-only chunk `d_chunk_1` that the semantic top-2 (a single hit) does
not, so the id lists are not permutations of each other. -/
theorem hybrid_kw_zero_c8_counterexample :
    hybridSearch envTwo "x".toList 2 1 0 none =
      .ok [⟨"d", "d_chunk_0", some "xa".toList, some [], (1 : ℚ)/2, 0⟩,
        ⟨"d", "d_chunk_1", some "xb".toList, some [], 0, 0⟩] ∧
    searchResults envTwo 2 none 0 true true = [resSem0] ∧
    ¬ ((([⟨"d", "d_chunk_0", some "xa".toList, some [], (1 : ℚ)/2, 0⟩,
        ⟨"d", "d_chunk_1", some "xb".toList, some [], 0, 0⟩] :
        List SearchResult).map (fun r => r.chunk_id)).Perm
      (([resSem0] : List SearchResult).map (fun r => r.chunk_id))) := by
  refine ⟨by with_unfolding_all decide, by with_unfolding_all decide, ?_⟩
  intro hperm
  have hlen := hperm.length_eq
  simp at hlen

unseal List.merge List.mergeSort in
theorem hybrid_kw_zero_permutation_witness :
    searchResults envTwo 1 none 0 true true = [resSem0] ∧
    ((hybridCombine [resSem0] grsW 1 0 1).map (fun r => r.chunk_id)).Perm
      ((searchResults envTwo 1 none 0 true true).map (fun r => r.chunk_id)) := by
  have h := hybrid_kw_zero_permutation envTwo "x".toList 1 1 none
    (fun k => ([((0 : Int), (1 : ℚ)/2)]).take k) [((0 : Int), (1 : ℚ)/2)]
    [resSem0] [resSem0] grsW rfl (fun k => rfl) rfl (by simp)
    (by norm_num) (by omega)
    (by with_unfolding_all decide) (by with_unfolding_all decide)
    (by with_unfolding_all decide) (by decide)
    (by with_unfolding_all decide)
  exact ⟨h.1, h.2.2.2⟩

unseal List.merge List.mergeSort in
theorem hybrid_grep_only_position_zero_witness :
    hybridSearch envTwo "x".toList 2 1 1 none = .ok [resHybA, resHybB] ∧
      resHybB.position = 0 ∧ chunkD1.position = 1 :=
  ⟨by with_unfolding_all decide,
   (hybrid_grep_only_position_zero envTwo "x".toList 2 1 1 none
      [resHybA, resHybB] (by with_unfolding_all decide)
      (by with_unfolding_all decide) resHybB
      (List.mem_cons_of_mem _ (List.mem_cons_self _ _))).1
    (by with_unfolding_all decide),
   rfl⟩

end Leann
